import Mathlib

/-!
Verification development for the tinysearch program (`tiny.py`).

The program builds an inverted index over text documents and answers
ranked keyword queries with a TF-IDF style score.  This file gives a
shallow embedding of the program:

* `words` embeds the tokenizer `words(text)` (lower-case, maximal runs
  of word characters);
* `build` embeds the in-memory index construction of `make_index`
  (documents list, association list from term to hit list, insertion
  ordered like Python dictionaries);
* `serializeAll` embeds the serialization loop of `make_index`
  (`struct.pack("=II", ...)` plus `array('I').tobytes()`, little-endian
  4-byte records, running `start` offset);
* `decodeHits`/`lookup` embed `Index.lookup` (slice of the blob,
  record-by-record decode with an exactness check at the boundary);
* `scoreWords`/`search` embed `Index.search`; floating point scores are
  idealized as real numbers, and operations that raise Python
  exceptions (short `struct.unpack`, truncated `array.frombytes`, the
  final `assert`, out-of-range list indexing) are modelled with
  `Option`, `none` standing for a raised exception.

Bytes are modelled as natural numbers (well-formed bytes are `< 256`);
machine 4-byte unsigned integers are naturals, with `% 2 ^ 32`
truncation made explicit where overflow would matter.
-/

/-! ## Tokenizer: `words(text) = re.findall(r"\w+", text.lower())` -/

/-- A character matched by `\w` (ASCII reading): alphanumeric or underscore. -/
def isWordChar (c : Char) : Bool := c.isAlphanum || c == '_'

/-- Split a character list into maximal runs of word characters.
`cur` is the current run, reversed, mirroring a scanning loop. -/
def tokenize : List Char → List Char → List String
  | [], cur => if cur = [] then [] else [String.mk cur.reverse]
  | c :: cs, cur =>
    if isWordChar c then tokenize cs (c :: cur)
    else if cur = [] then tokenize cs []
    else String.mk cur.reverse :: tokenize cs []

/-- `words(text)`: lower-case the text, extract maximal word-character runs. -/
def words (text : String) : List String :=
  tokenize (text.data.map Char.toLower) []

/-! ## Data model -/

/-- `Document = namedtuple("Document", "filename size")`. -/
structure Document where
  filename : String
  size : Nat
deriving DecidableEq

/-- `Hit = namedtuple("Hit", "doc_id offsets")`. -/
structure Hit where
  doc_id : Nat
  offsets : List Nat
deriving DecidableEq

/-! ## In-memory index construction (`make_index`, phase "build in memory")

Python dictionaries preserve insertion order, so `defaultdict`s are
modelled as association lists: updating an existing key keeps its
position, a new key is appended at the end. -/

/-- `doc_index[word].offsets.append(i)` on the per-document map. -/
def addOffset : List (String × List Nat) → String → Nat → List (String × List Nat)
  | [], w, i => [(w, [i])]
  | (w', offs) :: rest, w, i =>
    if w' = w then (w', offs ++ [i]) :: rest
    else (w', offs) :: addOffset rest w i

/-- `for i, word in enumerate(words(text)): doc_index[word].offsets.append(i)`. -/
def scanTokens : List (String × List Nat) → Nat → List String → List (String × List Nat)
  | acc, _, [] => acc
  | acc, i, w :: ws => scanTokens (addOffset acc w i) (i + 1) ws

/-- The per-document index: term ↦ ascending offsets, keys in first-occurrence order. -/
def docIndex (tokens : List String) : List (String × List Nat) :=
  scanTokens [] 0 tokens

/-- `index[word].append(hit)` on the global map. -/
def addHit : List (String × List Hit) → String → Hit → List (String × List Hit)
  | [], w, h => [(w, [h])]
  | (w', hs) :: rest, w, h =>
    if w' = w then (w', hs ++ [h]) :: rest
    else (w', hs) :: addHit rest w h

/-- The in-memory state of `make_index`: `documents` and `index`. -/
structure BuildResult where
  documents : List Document
  index : List (String × List Hit)
deriving DecidableEq

/-- One iteration of `for path in dir.glob(...)`: tokenize the document,
record it, and merge its per-document index into the global index. -/
def buildStep (st : BuildResult) (d : String × String) : BuildResult :=
  let toks := words d.2
  let doc_id := st.documents.length
  { documents := st.documents ++ [⟨d.1, toks.length⟩]
    index := (docIndex toks).foldl (fun ix p => addHit ix p.1 ⟨doc_id, p.2⟩) st.index }

/-- The in-memory build over a discovery-ordered document source
`(path, full_text)`. -/
def build (docs : List (String × String)) : BuildResult :=
  docs.foldl buildStep ⟨[], []⟩

/-! ## Serializer (`make_index`, phase "save the index") -/

/-- Little-endian 4 bytes of an unsigned 32-bit value (`struct.pack("=I", n)`). -/
def le32 (n : Nat) : List Nat :=
  [n % 256, n / 256 % 256, n / 256 ^ 2 % 256, n / 256 ^ 3 % 256]

/-- `struct.pack("=II", hit.doc_id, len(hit.offsets)) + hit.offsets.tobytes()`. -/
def encodeHit (h : Hit) : List Nat :=
  le32 h.doc_id ++ le32 h.offsets.length ++ (h.offsets.map le32).flatten

/-- The contiguous serialization of one term's hit list (the `bytes`
variable accumulated in the `for hit in hits` loop). -/
def encodeHits (hs : List Hit) : List Nat :=
  (hs.map encodeHit).flatten

/-- One iteration of `for word, hits in index.items()`: append the term's
bytes to the blob, record `(word, start, len(bytes))`, advance `start`.
The state is `(blob so far, terms rows so far, start)`. -/
def serializeStep (acc : List Nat × List (String × Nat × Nat) × Nat)
    (p : String × List Hit) : List Nat × List (String × Nat × Nat) × Nat :=
  let bs := encodeHits p.2
  (acc.1 ++ bs, acc.2.1 ++ [(p.1, acc.2.2, bs.length)], acc.2.2 + bs.length)

/-- The whole serialization loop, from `start = 0` and empty outputs. -/
def serializeAll (index : List (String × List Hit)) :
    List Nat × List (String × Nat × Nat) × Nat :=
  index.foldl serializeStep ([], [], 0)

/-- The loaded index: the document table, the term directory and the
postings blob (the three artifacts written by `make_index`, as read
back by `Index.__init__`). -/
structure Index where
  documents : List Document
  terms : List (String × Nat × Nat)
  blob : List Nat
deriving DecidableEq

/-- `make_index(dir)` followed by `Index(dir)`: build in memory,
serialize, and view the written artifacts as a loaded `Index`. -/
def makeIndex (docs : List (String × String)) : Index :=
  let b := build docs
  let s := serializeAll b.index
  ⟨b.documents, s.2.1, s.1⟩

/-! ## Decoder (`Index.lookup`) -/

/-- Little-endian value of a byte list (`fromLe [b0,b1,b2,b3]` is the
unsigned 32-bit value `struct.unpack` reads from those four bytes). -/
def fromLe (bs : List Nat) : Nat :=
  bs.foldr (fun b acc => b + 256 * acc) 0

/-- `array('I').frombytes`: decode consecutive 4-byte little-endian values. -/
def decodeOffsets : List Nat → List Nat
  | b0 :: b1 :: b2 :: b3 :: rest => fromLe [b0, b1, b2, b3] :: decodeOffsets rest
  | _ => []

/-- The `while read_pos < len(bytes)` decode loop of `Index.lookup`,
with an explicit fuel argument (each iteration consumes at least 8
bytes, so `bytes.length` fuel always suffices).  `none` models a raised
exception: a short `struct.unpack` slice (< 8 bytes remaining), a
truncated offsets slice (`read_pos` would overrun, which in the source
ends in `array.frombytes` raising or the final
`assert read_pos == len(bytes)` failing). -/
def decodeLoop : Nat → List Nat → Option (List Hit)
  | _, [] => some []
  | 0, _ :: _ => none
  | fuel + 1, b :: bs =>
    let bytes := b :: bs
    if 8 ≤ bytes.length then
      let cnt := fromLe ((bytes.drop 4).take 4)
      if 8 + 4 * cnt ≤ bytes.length then
        match decodeLoop fuel (bytes.drop (8 + 4 * cnt)) with
        | some hs =>
          some (⟨fromLe (bytes.take 4), decodeOffsets ((bytes.drop 8).take (4 * cnt))⟩ :: hs)
        | none => none
      else none
    else none

/-- Decode a full byte range into hits, or `none` on corruption. -/
def decodeHits (bytes : List Nat) : Option (List Hit) :=
  decodeLoop bytes.length bytes

/-- `Index.lookup(word)`: absent terms give an empty hit list (not an
error); present terms slice `[start, start+length)` out of the blob and
decode it.  `none` models a raised exception during decoding. -/
def lookup (idx : Index) (w : String) : Option (List Hit) :=
  match idx.terms.find? (fun p => p.1 == w) with
  | none => some []
  | some p => decodeHits ((idx.blob.drop p.2.1).take p.2.2)

/-! ## Specification-side recomputation (for the round-trip claim)

These definitions follow the spec's words: the token positions of a
term recomputed directly from the Tokenizer's output, and the postings
expected for a term across a document set. -/

/-- Positions (0-based, starting the count at `i`) of `w` in a token list. -/
def positionsFrom (i : Nat) (w : String) : List String → List Nat
  | [] => []
  | t :: ts =>
    if t = w then i :: positionsFrom (i + 1) w ts else positionsFrom (i + 1) w ts

/-- 0-based token positions of `w` in a token list. -/
def positions (w : String) (toks : List String) : List Nat :=
  positionsFrom 0 w toks

/-- Expected postings of `w` over documents numbered from `did`:
one hit per document that contains `w`, in document order. -/
def expectedHitsFrom (did : Nat) (w : String) : List (String × String) → List Hit
  | [] => []
  | d :: ds =>
    (if positions w (words d.2) = [] then []
     else [⟨did, positions w (words d.2)⟩]) ++ expectedHitsFrom (did + 1) w ds

/-- Expected postings of `w` over a document set. -/
def expectedHits (w : String) (docs : List (String × String)) : List Hit :=
  expectedHitsFrom 0 w docs

/-! ## Query engine (`Index.search`)

Python float arithmetic is idealized as real arithmetic.  `none`
models a raised exception (a corrupt decode in `lookup`, or an
out-of-range `self.documents[doc_id]`). -/

/-- The comparison realised by
`sorted(scores.items(), key=lambda pair: pair[1], reverse=True)`:
`a` may come before `b` iff `a`'s score is at least `b`'s. -/
def scoreGE (a b : Nat × ℝ) : Prop := b.2 ≤ a.2

noncomputable instance : DecidableRel scoreGE := fun a b => Real.decidableLE b.2 a.2

instance : IsTotal (Nat × ℝ) scoreGE := ⟨fun a b => le_total b.2 a.2⟩

instance : IsTrans (Nat × ℝ) scoreGE := ⟨fun _ _ _ h1 h2 => le_trans h2 h1⟩

/-- `scores[doc_id] += x` on a `defaultdict(float)` kept in insertion
order: update the existing entry in place, or append a fresh one. -/
def bump : List (Nat × ℝ) → Nat → ℝ → List (Nat × ℝ)
  | [], d, x => [(d, x)]
  | (d', s) :: rest, d, x =>
    if d' = d then (d', s + x) :: rest else (d', s) :: bump rest d x

/-- The inner loop `for hit in hits`: add `tf * idf` to the hit's
document score, where `tf = 1000 * len(hit.offsets) / documents[doc_id].size`. -/
noncomputable def scoreHits (documents : List Document) (idf : ℝ) :
    List (Nat × ℝ) → List Hit → Option (List (Nat × ℝ))
  | scores, [] => some scores
  | scores, h :: rest =>
    match documents[h.doc_id]? with
    | none => none
    | some doc =>
      scoreHits documents idf
        (bump scores h.doc_id (1000 * (h.offsets.length : ℝ) / (doc.size : ℝ) * idf)) rest

/-- The outer loop `for word in words(query)`: look the word up, and if
it has hits, compute `df = len(hits)/len(documents)`,
`idf = log(1/df)` and fold the hits into the scores. -/
noncomputable def scoreWords (idx : Index) : List String → List (Nat × ℝ) → Option (List (Nat × ℝ))
  | [], scores => some scores
  | w :: ws, scores =>
    match lookup idx w with
    | none => none
    | some hits =>
      if hits = [] then scoreWords idx ws scores
      else
        let idf : ℝ := Real.log (1 / ((hits.length : ℝ) / (idx.documents.length : ℝ)))
        match scoreHits idx.documents idf scores hits with
        | none => none
        | some scores' => scoreWords idx ws scores'

/-- `sorted(scores.items(), key=lambda pair: pair[1], reverse=True)`:
a stable sort, descending by score. -/
noncomputable def sortScores (scores : List (Nat × ℝ)) : List (Nat × ℝ) :=
  List.insertionSort scoreGE scores

/-- The ranked `(doc_id, score)` pairs `results[:10]` of `Index.search`. -/
noncomputable def rankedPairs (idx : Index) (q : String) : Option (List (Nat × ℝ)) :=
  (scoreWords idx (words q) []).map fun s => (sortScores s).take 10

/-- `(self.documents[doc_id].filename, score)`. -/
def pathify (documents : List Document) (p : Nat × ℝ) : Option (String × ℝ) :=
  match documents[p.1]? with
  | none => none
  | some doc => some (doc.filename, p.2)

/-- `Index.search(query)`: ranked `(document_path, score)` pairs. -/
noncomputable def search (idx : Index) (q : String) : Option (List (String × ℝ)) :=
  match rankedPairs idx q with
  | none => none
  | some pairs => pairs.mapM (pathify idx.documents)

/-- The accumulated score of document `d` (`0` when absent, as for
`defaultdict(float)`). -/
noncomputable def scoreVal (scores : List (Nat × ℝ)) (d : Nat) : ℝ :=
  match scores.find? (fun p => p.1 == d) with
  | none => 0
  | some p => p.2

/-! ## Association-list helpers (Python dicts keep insertion order) -/

/-- The key sequence of an association list (dict iteration order). -/
def keys {α : Type} (l : List (String × α)) : List String := l.map Prod.fst

/-- `doc_index[w]` with the `defaultdict` default `[]`. -/
def getOffsets (l : List (String × List Nat)) (w : String) : List Nat :=
  match l.find? (fun p => p.1 == w) with
  | none => []
  | some p => p.2

/-- `index[w]` with the `defaultdict` default `[]`. -/
def getHits (l : List (String × List Hit)) (w : String) : List Hit :=
  match l.find? (fun p => p.1 == w) with
  | none => []
  | some p => p.2

/-- First-occurrence deduplication with an explicit seen set: the key
order in which Python dict insertion discovers terms. -/
def firstDedupAux (seen : List String) : List String → List String
  | [] => []
  | a :: l =>
    if a ∈ seen then firstDedupAux seen l
    else a :: firstDedupAux (seen ++ [a]) l

/-- First-occurrence order of the distinct elements of a list. -/
def firstDedup (l : List String) : List String := firstDedupAux [] l

/-- The concatenated token stream of a document set, in discovery order. -/
def docTokens (docs : List (String × String)) : List String :=
  (docs.map fun d => words d.2).flatten

/-- The document table produced by the build. -/
def documentsOf (docs : List (String × String)) : List Document :=
  docs.map fun d => ⟨d.1, (words d.2).length⟩

/-- The term directory rows, written with an explicit running `start`. -/
def termRows (start : Nat) : List (String × List Hit) → List (String × Nat × Nat)
  | [] => []
  | p :: rest =>
    (p.1, start, (encodeHits p.2).length) ::
      termRows (start + (encodeHits p.2).length) rest

/-- The full postings blob: per-term byte blocks, concatenated in order. -/
def blobOf (ix : List (String × List Hit)) : List Nat :=
  (ix.map fun p => encodeHits p.2).flatten

/-- A hit whose fields fit in unsigned 32-bit integers (the only hits
the Python code can write: `struct.pack` and `array('I')` raise on
larger values). -/
def ValidHit (h : Hit) : Prop :=
  h.doc_id < 2 ^ 32 ∧ h.offsets.length < 2 ^ 32 ∧ ∀ o ∈ h.offsets, o < 2 ^ 32

/-- The total `tf * idf` contribution of one decoded hit list to one
document's score (summed over the hits that name that document). -/
noncomputable def hitsContribution (documents : List Document) (idf : ℝ)
    (hits : List Hit) (d : Nat) : ℝ :=
  (hits.map fun h =>
    if h.doc_id = d then
      1000 * (h.offsets.length : ℝ) / (((documents[h.doc_id]?).getD ⟨"", 0⟩).size : ℝ) * idf
    else 0).sum

/-- The score contribution of a single occurrence of a query word to a
document: `tf * idf` summed over the word's postings for that document,
`0` for an out-of-vocabulary or unmatched word. -/
noncomputable def wordContribution (idx : Index) (w : String) (d : Nat) : ℝ :=
  match lookup idx w with
  | none => 0
  | some hits =>
    if hits = [] then 0
    else hitsContribution idx.documents
      (Real.log (1 / ((hits.length : ℝ) / (idx.documents.length : ℝ)))) hits d

/-- Two documents: `d0` has text `"a b"`, `d1` has text `"a"`. -/
def docsAB : List (String × String) := [("d0", "a b"), ("d1", "a")]

/-- The index built from `docsAB`. -/
def idxAB : Index := makeIndex docsAB

theorem find?_eq_none_of_not_mem_keys {α : Type} (l : List (String × α)) (w : String)
    (h : w ∉ keys l) : l.find? (fun p => p.1 == w) = none := by
  induction l with
  | nil => rfl
  | cons p rest ih =>
    have hpw : p.1 ≠ w := by
      intro he
      exact h (by simp [keys, he])
    rw [List.find?_cons_of_neg _ (by simpa using hpw)]
    exact ih (fun hm => h (by simp [keys] at hm ⊢; exact Or.inr hm))

theorem getOffsets_nil (v : String) : getOffsets [] v = [] := rfl

theorem getOffsets_cons (w' : String) (offs : List Nat) (rest : List (String × List Nat))
    (v : String) :
    getOffsets ((w', offs) :: rest) v = if w' = v then offs else getOffsets rest v := by
  by_cases h : w' = v
  · simp [getOffsets, List.find?_cons_of_pos, h]
  · simp [getOffsets, List.find?_cons_of_neg, h]

theorem getHits_nil (v : String) : getHits [] v = [] := rfl

theorem getHits_cons (w' : String) (hs : List Hit) (rest : List (String × List Hit))
    (v : String) :
    getHits ((w', hs) :: rest) v = if w' = v then hs else getHits rest v := by
  by_cases h : w' = v
  · simp [getHits, List.find?_cons_of_pos, h]
  · simp [getHits, List.find?_cons_of_neg, h]

theorem getHits_eq_nil_of_not_mem_keys (l : List (String × List Hit)) (w : String)
    (h : w ∉ keys l) : getHits l w = [] := by
  induction l with
  | nil => rfl
  | cons p rest ih =>
    rw [show p = (p.1, p.2) from rfl, getHits_cons]
    rw [if_neg (fun he => h (by simp [keys, he]))]
    exact ih (fun hm => h (by simp [keys] at hm ⊢; exact Or.inr hm))

theorem getOffsets_addOffset (acc : List (String × List Nat)) (w : String) (i : Nat)
    (v : String) :
    getOffsets (addOffset acc w i) v =
      if v = w then getOffsets acc v ++ [i] else getOffsets acc v := by
  induction acc with
  | nil =>
    by_cases hvw : v = w
    · simp [addOffset, getOffsets_cons, getOffsets_nil, hvw]
    · simp [addOffset, getOffsets_cons, getOffsets_nil, hvw, Ne.symm hvw]
  | cons p rest ih =>
    obtain ⟨w', offs⟩ := p
    by_cases hw : w' = w
    · subst hw
      by_cases hvw : v = w'
      · simp [addOffset, getOffsets_cons, hvw]
      · simp [addOffset, getOffsets_cons, hvw, Ne.symm hvw]
    · by_cases hvw : v = w'
      · subst hvw
        simp [addOffset, hw, getOffsets_cons, fun h : v = w => hw (h ▸ rfl)]
      · simp [addOffset, hw, getOffsets_cons, Ne.symm hvw, ih]

theorem keys_addOffset (acc : List (String × List Nat)) (w : String) (i : Nat) :
    keys (addOffset acc w i) =
      if w ∈ keys acc then keys acc else keys acc ++ [w] := by
  induction acc with
  | nil => simp [addOffset, keys]
  | cons p rest ih =>
    obtain ⟨w', offs⟩ := p
    by_cases hw : w' = w
    · subst hw
      simp [addOffset, keys]
    · simp only [addOffset, if_neg hw, keys, List.map_cons] at ih ⊢
      by_cases hm : w ∈ List.map Prod.fst rest
      · rw [if_pos hm] at ih
        rw [if_pos (List.mem_cons_of_mem _ hm), ih]
      · rw [if_neg hm] at ih
        rw [if_neg (fun hc =>
          (List.mem_cons.mp hc).elim (fun h1 => hw h1.symm) hm), ih, List.cons_append]

theorem mem_firstDedupAux (l : List String) : ∀ (seen : List String) (x : String),
    x ∈ firstDedupAux seen l ↔ x ∈ l ∧ x ∉ seen := by
  induction l with
  | nil => intro seen x; simp [firstDedupAux]
  | cons a l ih =>
    intro seen x
    by_cases ha : a ∈ seen
    · by_cases hxa : x = a
      · subst hxa
        simp [firstDedupAux, ha, ih, fun h : x ∉ seen => h ha]
      · simp [firstDedupAux, ha, ih, hxa]
    · by_cases hxa : x = a
      · subst hxa
        simp [firstDedupAux, ha, ih]
      · simp [firstDedupAux, ha, ih, hxa]

theorem nodup_firstDedupAux (l : List String) : ∀ seen : List String,
    (firstDedupAux seen l).Nodup := by
  induction l with
  | nil => intro seen; simp [firstDedupAux]
  | cons a l ih =>
    intro seen
    by_cases ha : a ∈ seen
    · simpa [firstDedupAux, ha] using ih seen
    · rw [show firstDedupAux seen (a :: l) = a :: firstDedupAux (seen ++ [a]) l by
        simp [firstDedupAux, ha]]
      refine List.nodup_cons.mpr ⟨?_, ih (seen ++ [a])⟩
      intro hmem
      exact ((mem_firstDedupAux l (seen ++ [a]) a).mp hmem).2 (by simp)

theorem find?_of_mem_nodup {α : Type} (l : List (String × α)) (hnd : (keys l).Nodup)
    (w : String) (x : α) (hm : (w, x) ∈ l) :
    l.find? (fun p => p.1 == w) = some (w, x) := by
  induction l with
  | nil => cases hm
  | cons p rest ih =>
    rcases List.mem_cons.mp hm with he | hr
    · rw [← he]
      exact List.find?_cons_of_pos _ (by simp)
    · have hw : w ∈ keys rest := by
        simpa [keys] using List.mem_map_of_mem Prod.fst hr
      have hp : p.1 ≠ w := by
        intro he
        exact (List.nodup_cons.mp (by simpa [keys] using hnd)).1 (he ▸ hw)
      rw [List.find?_cons_of_neg _ (by simpa using hp)]
      exact ih (List.nodup_cons.mp (by simpa [keys] using hnd)).2 hr

theorem getOffsets_scanTokens (toks : List String) : ∀ (acc : List (String × List Nat))
    (i : Nat) (v : String),
    getOffsets (scanTokens acc i toks) v = getOffsets acc v ++ positionsFrom i v toks := by
  induction toks with
  | nil => intro acc i v; simp [scanTokens, positionsFrom]
  | cons w ws ih =>
    intro acc i v
    by_cases hvw : v = w
    · subst hvw
      simp [scanTokens, positionsFrom, ih, getOffsets_addOffset]
    · simp [scanTokens, positionsFrom, ih, getOffsets_addOffset, hvw, Ne.symm hvw]

theorem keys_scanTokens (toks : List String) : ∀ (acc : List (String × List Nat)) (i : Nat),
    keys (scanTokens acc i toks) = keys acc ++ firstDedupAux (keys acc) toks := by
  induction toks with
  | nil => intro acc i; simp [scanTokens, firstDedupAux]
  | cons w ws ih =>
    intro acc i
    by_cases hm : w ∈ keys acc
    · simp [scanTokens, ih, keys_addOffset, hm, firstDedupAux]
    · simp [scanTokens, ih, keys_addOffset, hm, firstDedupAux]

theorem getOffsets_docIndex (toks : List String) (v : String) :
    getOffsets (docIndex toks) v = positions v toks := by
  simpa [docIndex, positions, getOffsets_nil] using getOffsets_scanTokens toks [] 0 v

theorem keys_docIndex (toks : List String) : keys (docIndex toks) = firstDedup toks := by
  simpa [docIndex, keys, firstDedup] using keys_scanTokens toks [] 0

theorem mem_keys_docIndex (toks : List String) (v : String) :
    v ∈ keys (docIndex toks) ↔ v ∈ toks := by
  rw [keys_docIndex]
  simpa [firstDedup] using mem_firstDedupAux toks [] v

theorem nodup_keys_docIndex (toks : List String) : (keys (docIndex toks)).Nodup := by
  rw [keys_docIndex]
  exact nodup_firstDedupAux toks []

theorem mem_positionsFrom_iff (v : String) : ∀ (toks : List String) (i : Nat),
    positionsFrom i v toks ≠ [] ↔ v ∈ toks := by
  intro toks
  induction toks with
  | nil => intro i; simp [positionsFrom]
  | cons t ts ih =>
    intro i
    by_cases ht : t = v
    · simp [positionsFrom, ht]
    · simp only [positionsFrom, if_neg ht, ih, List.mem_cons]
      constructor
      · exact Or.inr
      · rintro (h | h)
        · exact absurd h.symm ht
        · exact h

theorem le_of_mem_positionsFrom (v : String) : ∀ (toks : List String) (i o : Nat),
    o ∈ positionsFrom i v toks → i ≤ o := by
  intro toks
  induction toks with
  | nil => intro i o h; simp [positionsFrom] at h
  | cons t ts ih =>
    intro i o h
    by_cases ht : t = v
    · rw [positionsFrom, if_pos ht] at h
      rcases List.mem_cons.mp h with he | hr
      · omega
      · exact le_trans (by omega) (ih (i + 1) o hr)
    · rw [positionsFrom, if_neg ht] at h
      exact le_trans (by omega) (ih (i + 1) o h)

theorem lt_of_mem_positionsFrom (v : String) : ∀ (toks : List String) (i o : Nat),
    o ∈ positionsFrom i v toks → o < i + toks.length := by
  intro toks
  induction toks with
  | nil => intro i o h; simp [positionsFrom] at h
  | cons t ts ih =>
    intro i o h
    by_cases ht : t = v
    · rw [positionsFrom, if_pos ht] at h
      rcases List.mem_cons.mp h with he | hr
      · simp [he]
      · have := ih (i + 1) o hr
        simpa [Nat.add_assoc, Nat.add_comm 1 ts.length] using this
    · rw [positionsFrom, if_neg ht] at h
      have := ih (i + 1) o h
      simpa [Nat.add_assoc, Nat.add_comm 1 ts.length] using this

theorem length_positionsFrom_le (v : String) : ∀ (toks : List String) (i : Nat),
    (positionsFrom i v toks).length ≤ toks.length := by
  intro toks
  induction toks with
  | nil => intro i; simp [positionsFrom]
  | cons t ts ih =>
    intro i
    by_cases ht : t = v
    · simpa [positionsFrom, ht] using ih (i + 1)
    · simpa [positionsFrom, ht] using Nat.le_succ_of_le (ih (i + 1))

theorem chain_positionsFrom (v : String) : ∀ (toks : List String) (i : Nat),
    List.Chain' (· < ·) (positionsFrom i v toks) := by
  intro toks
  induction toks with
  | nil => intro i; simp [positionsFrom]
  | cons t ts ih =>
    intro i
    by_cases ht : t = v
    · rw [positionsFrom, if_pos ht]
      refine List.chain'_cons'.mpr ⟨?_, ih (i + 1)⟩
      intro y hy
      have : i + 1 ≤ y :=
        le_of_mem_positionsFrom v ts (i + 1) y (List.mem_of_mem_head? hy)
      omega
    · rw [positionsFrom, if_neg ht]
      exact ih (i + 1)

/-! ## Characterizing the built in-memory index -/

theorem getHits_addHit (ix : List (String × List Hit)) (w : String) (h : Hit)
    (v : String) :
    getHits (addHit ix w h) v =
      if v = w then getHits ix v ++ [h] else getHits ix v := by
  induction ix with
  | nil =>
    by_cases hvw : v = w
    · simp [addHit, getHits_cons, getHits_nil, hvw]
    · simp [addHit, getHits_cons, getHits_nil, hvw, Ne.symm hvw]
  | cons p rest ih =>
    obtain ⟨w', hs⟩ := p
    by_cases hw : w' = w
    · subst hw
      by_cases hvw : v = w'
      · simp [addHit, getHits_cons, hvw]
      · simp [addHit, getHits_cons, hvw, Ne.symm hvw]
    · by_cases hvw : v = w'
      · subst hvw
        simp [addHit, hw, getHits_cons, fun h : v = w => hw (h ▸ rfl)]
      · simp [addHit, hw, getHits_cons, Ne.symm hvw, ih]

theorem keys_addHit (ix : List (String × List Hit)) (w : String) (h : Hit) :
    keys (addHit ix w h) =
      if w ∈ keys ix then keys ix else keys ix ++ [w] := by
  induction ix with
  | nil => simp [addHit, keys]
  | cons p rest ih =>
    obtain ⟨w', hs⟩ := p
    by_cases hw : w' = w
    · subst hw
      simp [addHit, keys]
    · simp only [addHit, if_neg hw, keys, List.map_cons] at ih ⊢
      by_cases hm : w ∈ List.map Prod.fst rest
      · rw [if_pos hm] at ih
        rw [if_pos (List.mem_cons_of_mem _ hm), ih]
      · rw [if_neg hm] at ih
        rw [if_neg (fun hc =>
          (List.mem_cons.mp hc).elim (fun h1 => hw h1.symm) hm), ih, List.cons_append]

theorem getHits_foldl_addHit (entries : List (String × List Nat)) :
    ∀ (ix : List (String × List Hit)) (did : Nat) (v : String),
    (keys entries).Nodup →
    getHits (entries.foldl (fun ix p => addHit ix p.1 ⟨did, p.2⟩) ix) v =
      getHits ix v ++
        (match entries.find? (fun p => p.1 == v) with
         | some p => [Hit.mk did p.2]
         | none => []) := by
  induction entries with
  | nil => intro ix did v _; simp
  | cons p rest ih =>
    intro ix did v hnd
    obtain ⟨w, offs⟩ := p
    have hnd' : (keys rest).Nodup := (List.nodup_cons.mp (by simpa [keys] using hnd)).2
    have hwrest : w ∉ keys rest := (List.nodup_cons.mp (by simpa [keys] using hnd)).1
    rw [List.foldl_cons, ih (addHit ix w ⟨did, offs⟩) did v hnd']
    by_cases hvw : v = w
    · subst hvw
      rw [getHits_addHit, if_pos rfl,
        find?_eq_none_of_not_mem_keys rest v hwrest,
        List.find?_cons_of_pos _ (by simp), List.append_nil]
    · rw [getHits_addHit, if_neg hvw,
        List.find?_cons_of_neg _ (by simpa using fun h => hvw h.symm)]

theorem keys_foldl_addHit (entries : List (String × List Nat)) :
    ∀ (ix : List (String × List Hit)) (did : Nat),
    keys (entries.foldl (fun ix p => addHit ix p.1 ⟨did, p.2⟩) ix) =
      keys ix ++ firstDedupAux (keys ix) (keys entries) := by
  induction entries with
  | nil => intro ix did; simp [keys, firstDedupAux]
  | cons p rest ih =>
    intro ix did
    obtain ⟨w, offs⟩ := p
    rw [List.foldl_cons, ih (addHit ix w ⟨did, offs⟩) did, keys_addHit]
    have hk : keys ((w, offs) :: rest) = w :: keys rest := rfl
    by_cases hm : w ∈ keys ix
    · rw [if_pos hm, hk]
      rw [show firstDedupAux (keys ix) (w :: keys rest) =
        firstDedupAux (keys ix) (keys rest) by simp [firstDedupAux, hm]]
    · rw [if_neg hm, hk]
      rw [show firstDedupAux (keys ix) (w :: keys rest) =
        w :: firstDedupAux (keys ix ++ [w]) (keys rest) by simp [firstDedupAux, hm]]
      simp [List.append_assoc]

theorem firstDedupAux_congr (l : List String) : ∀ (seen1 seen2 : List String),
    (∀ x, x ∈ seen1 ↔ x ∈ seen2) → firstDedupAux seen1 l = firstDedupAux seen2 l := by
  induction l with
  | nil => intro _ _ _; rfl
  | cons a l ih =>
    intro seen1 seen2 hmem
    by_cases ha : a ∈ seen1
    · rw [show firstDedupAux seen1 (a :: l) = firstDedupAux seen1 l by
        simp [firstDedupAux, ha],
        show firstDedupAux seen2 (a :: l) = firstDedupAux seen2 l by
        simp [firstDedupAux, (hmem a).mp ha]]
      exact ih seen1 seen2 hmem
    · have ha2 : a ∉ seen2 := fun hc => ha ((hmem a).mpr hc)
      rw [show firstDedupAux seen1 (a :: l) = a :: firstDedupAux (seen1 ++ [a]) l by
        simp [firstDedupAux, ha],
        show firstDedupAux seen2 (a :: l) = a :: firstDedupAux (seen2 ++ [a]) l by
        simp [firstDedupAux, ha2]]
      exact congrArg _ (ih _ _ (fun x => by simp [hmem x]))

theorem firstDedupAux_append (xs : List String) : ∀ (ys seen : List String),
    firstDedupAux seen (xs ++ ys) =
      firstDedupAux seen xs ++ firstDedupAux (seen ++ firstDedupAux seen xs) ys := by
  induction xs with
  | nil =>
    intro ys seen
    simp [firstDedupAux]
  | cons a xs ih =>
    intro ys seen
    by_cases ha : a ∈ seen
    · rw [List.cons_append,
        show firstDedupAux seen (a :: (xs ++ ys)) = firstDedupAux seen (xs ++ ys) by
          simp [firstDedupAux, ha],
        show firstDedupAux seen (a :: xs) = firstDedupAux seen xs by
          simp [firstDedupAux, ha]]
      exact ih ys seen
    · rw [List.cons_append,
        show firstDedupAux seen (a :: (xs ++ ys)) =
          a :: firstDedupAux (seen ++ [a]) (xs ++ ys) by simp [firstDedupAux, ha],
        show firstDedupAux seen (a :: xs) =
          a :: firstDedupAux (seen ++ [a]) xs by simp [firstDedupAux, ha],
        ih ys (seen ++ [a]), List.cons_append]
      congr 2
      simp [List.append_assoc]

theorem firstDedupAux_idem (l : List String) : ∀ (seen' seen : List String),
    firstDedupAux seen (firstDedupAux seen' l) = firstDedupAux (seen' ++ seen) l := by
  induction l with
  | nil => intro _ _; rfl
  | cons a l ih =>
    intro seen' seen
    by_cases ha' : a ∈ seen'
    · rw [show firstDedupAux seen' (a :: l) = firstDedupAux seen' l by
        simp [firstDedupAux, ha'],
        show firstDedupAux (seen' ++ seen) (a :: l) = firstDedupAux (seen' ++ seen) l by
        simp [firstDedupAux, List.mem_append, ha']]
      exact ih seen' seen
    · by_cases ha : a ∈ seen
      · rw [show firstDedupAux seen' (a :: l) = a :: firstDedupAux (seen' ++ [a]) l by
          simp [firstDedupAux, ha'],
          show firstDedupAux seen (a :: firstDedupAux (seen' ++ [a]) l) =
            firstDedupAux seen (firstDedupAux (seen' ++ [a]) l) by
          simp [firstDedupAux, ha],
          ih (seen' ++ [a]) seen,
          show firstDedupAux (seen' ++ seen) (a :: l) = firstDedupAux (seen' ++ seen) l by
          simp [firstDedupAux, ha]]
        refine firstDedupAux_congr l _ _ (fun x => ?_)
        simp only [List.mem_append, List.mem_singleton]
        constructor
        · rintro ((h | rfl) | h)
          · exact Or.inl h
          · exact Or.inr ha
          · exact Or.inr h
        · rintro (h | h)
          · exact Or.inl (Or.inl h)
          · exact Or.inr h
      · have hps : a ∉ seen' ++ seen := by simp [ha', ha]
        rw [show firstDedupAux seen' (a :: l) = a :: firstDedupAux (seen' ++ [a]) l by
          simp [firstDedupAux, ha'],
          show firstDedupAux seen (a :: firstDedupAux (seen' ++ [a]) l) =
            a :: firstDedupAux (seen ++ [a]) (firstDedupAux (seen' ++ [a]) l) by
          simp [firstDedupAux, ha],
          ih (seen' ++ [a]) (seen ++ [a]),
          show firstDedupAux (seen' ++ seen) (a :: l) =
            a :: firstDedupAux ((seen' ++ seen) ++ [a]) l by
          simp [firstDedupAux, hps]]
        exact congrArg _ (firstDedupAux_congr l _ _ (fun x => by simp; tauto))

theorem getHits_buildStep (st : BuildResult) (d : String × String) (v : String) :
    getHits ((buildStep st d).index) v =
      getHits st.index v ++
        (if positions v (words d.2) = [] then []
         else [Hit.mk st.documents.length (positions v (words d.2))]) := by
  have hfind : (docIndex (words d.2)).find? (fun p => p.1 == v) =
      if v ∈ words d.2 then some (v, positions v (words d.2)) else none := by
    by_cases hv : v ∈ words d.2
    · have hk : v ∈ List.map Prod.fst (docIndex (words d.2)) := by
        simpa [keys] using (mem_keys_docIndex _ v).mpr hv
      obtain ⟨p, hp, hfst⟩ := List.mem_map.mp hk
      have hmem : (v, p.2) ∈ docIndex (words d.2) := by
        rw [← hfst]; simpa using hp
      have hval := getOffsets_docIndex (words d.2) v
      unfold getOffsets at hval
      rw [find?_of_mem_nodup _ (nodup_keys_docIndex _) v p.2 hmem] at hval
      rw [find?_of_mem_nodup _ (nodup_keys_docIndex _) v p.2 hmem, if_pos hv]
      simpa using congrArg (fun x => some ((v : String), x)) hval
    · rw [find?_eq_none_of_not_mem_keys _ _
        (fun hk => hv ((mem_keys_docIndex _ v).mp hk)), if_neg hv]
  show getHits ((docIndex (words d.2)).foldl
      (fun ix p => addHit ix p.1 ⟨st.documents.length, p.2⟩) st.index) v = _
  rw [getHits_foldl_addHit _ st.index st.documents.length v (nodup_keys_docIndex _), hfind]
  by_cases hv : v ∈ words d.2
  · rw [if_pos hv,
      if_neg (show ¬ positions v (words d.2) = [] from (mem_positionsFrom_iff v _ 0).mpr hv)]
  · have hnil : positions v (words d.2) = [] := by
      by_contra hne
      exact hv ((mem_positionsFrom_iff v _ 0).mp hne)
    rw [if_neg hv, if_pos hnil, List.append_nil]

theorem buildStep_documents (st : BuildResult) (d : String × String) :
    (buildStep st d).documents = st.documents ++ [⟨d.1, (words d.2).length⟩] := rfl

theorem build_foldl_documents (docs : List (String × String)) : ∀ st : BuildResult,
    (docs.foldl buildStep st).documents = st.documents ++ documentsOf docs := by
  induction docs with
  | nil => intro st; simp [documentsOf]
  | cons d ds ih =>
    intro st
    rw [List.foldl_cons, ih (buildStep st d), buildStep_documents]
    simp [documentsOf]

theorem build_documents (docs : List (String × String)) :
    (build docs).documents = documentsOf docs := by
  simpa [build] using build_foldl_documents docs ⟨[], []⟩

theorem getHits_build_foldl (docs : List (String × String)) :
    ∀ (st : BuildResult) (v : String),
    getHits ((docs.foldl buildStep st).index) v =
      getHits st.index v ++ expectedHitsFrom st.documents.length v docs := by
  induction docs with
  | nil => intro st v; simp [expectedHitsFrom]
  | cons d ds ih =>
    intro st v
    rw [List.foldl_cons, ih (buildStep st d) v, getHits_buildStep, expectedHitsFrom,
      List.append_assoc]
    have hlen : (buildStep st d).documents.length = st.documents.length + 1 := by
      simp [buildStep_documents]
    rw [hlen]

theorem getHits_build (docs : List (String × String)) (v : String) :
    getHits (build docs).index v = expectedHits v docs := by
  simpa [build, getHits_nil, expectedHits] using getHits_build_foldl docs ⟨[], []⟩ v

theorem keys_build_foldl (docs : List (String × String)) : ∀ st : BuildResult,
    keys ((docs.foldl buildStep st).index) =
      keys st.index ++ firstDedupAux (keys st.index) (docTokens docs) := by
  induction docs with
  | nil => intro st; simp [docTokens, firstDedupAux]
  | cons d ds ih =>
    intro st
    rw [List.foldl_cons, ih (buildStep st d)]
    have hstep : keys ((buildStep st d).index) =
        keys st.index ++ firstDedupAux (keys st.index) (words d.2) := by
      show keys ((docIndex (words d.2)).foldl
          (fun ix p => addHit ix p.1 ⟨st.documents.length, p.2⟩) st.index) = _
      rw [keys_foldl_addHit _ st.index st.documents.length, keys_docIndex]
      congr 1
      rw [show firstDedup (words d.2) = firstDedupAux [] (words d.2) from rfl,
        firstDedupAux_idem]
      rfl
    rw [hstep]
    have htok : docTokens (d :: ds) = words d.2 ++ docTokens ds := by
      simp [docTokens]
    rw [htok, firstDedupAux_append, List.append_assoc]

theorem keys_build (docs : List (String × String)) :
    keys (build docs).index = firstDedup (docTokens docs) := by
  simpa [build, keys, firstDedup] using keys_build_foldl docs ⟨[], []⟩

theorem nodup_keys_build (docs : List (String × String)) :
    (keys (build docs).index).Nodup := by
  rw [keys_build]
  exact nodup_firstDedupAux _ []

theorem getHits_of_mem_nodup (ix : List (String × List Hit))
    (hnd : (keys ix).Nodup) (p : String × List Hit) (hp : p ∈ ix) :
    getHits ix p.1 = p.2 := by
  unfold getHits
  rw [find?_of_mem_nodup ix hnd p.1 p.2 (by simpa using hp)]

theorem mem_expectedHitsFrom (v : String) : ∀ (docs : List (String × String))
    (did : Nat) (h : Hit), h ∈ expectedHitsFrom did v docs →
    ∃ k d, docs[k]? = some d ∧ h.doc_id = did + k ∧
      h.offsets = positions v (words d.2) ∧ v ∈ words d.2 := by
  intro docs
  induction docs with
  | nil => intro did h hm; simp [expectedHitsFrom] at hm
  | cons d ds ih =>
    intro did h hm
    rw [expectedHitsFrom] at hm
    rcases List.mem_append.mp hm with hl | hr
    · by_cases hnil : positions v (words d.2) = []
      · rw [if_pos hnil] at hl; cases hl
      · rw [if_neg hnil] at hl
        rcases List.mem_singleton.mp hl with rfl
        exact ⟨0, d, by simp, by simp, rfl, (mem_positionsFrom_iff v _ 0).mp hnil⟩
    · obtain ⟨k, d', hget, hid, hoffs, hv⟩ := ih (did + 1) h hr
      exact ⟨k + 1, d', by simpa using hget, by omega, hoffs, hv⟩

/-! ## Characterizing the serializer output -/

theorem serializeAll_foldl (ix : List (String × List Hit)) :
    ∀ (blob : List Nat) (rows : List (String × Nat × Nat)),
    ix.foldl serializeStep (blob, rows, blob.length) =
      (blob ++ blobOf ix, rows ++ termRows blob.length ix,
        blob.length + (blobOf ix).length) := by
  induction ix with
  | nil => intro blob rows; simp [blobOf, termRows]
  | cons p rest ih =>
    intro blob rows
    rw [List.foldl_cons]
    have hstep : serializeStep (blob, rows, blob.length) p =
        (blob ++ encodeHits p.2, rows ++ [(p.1, blob.length, (encodeHits p.2).length)],
          (blob ++ encodeHits p.2).length) := by
      simp [serializeStep]
    rw [hstep, ih (blob ++ encodeHits p.2) (rows ++ [(p.1, blob.length, (encodeHits p.2).length)])]
    refine congrArg₂ _ ?_ (congrArg₂ _ ?_ ?_)
    · simp [blobOf, List.append_assoc]
    · rw [List.append_assoc]
      refine congrArg _ ?_
      rw [termRows, List.singleton_append, List.length_append]
    · simp [blobOf]
      omega

theorem serializeAll_eq (ix : List (String × List Hit)) :
    serializeAll ix = (blobOf ix, termRows 0 ix, (blobOf ix).length) := by
  have h := serializeAll_foldl ix [] []
  simpa [serializeAll] using h

theorem makeIndex_eq (docs : List (String × String)) :
    makeIndex docs =
      ⟨documentsOf docs, termRows 0 (build docs).index, blobOf (build docs).index⟩ := by
  show (⟨(build docs).documents, (serializeAll (build docs).index).2.1,
    (serializeAll (build docs).index).1⟩ : Index) = _
  rw [serializeAll_eq, build_documents]

theorem termRows_lengths (ix : List (String × List Hit)) : ∀ s : Nat,
    (termRows s ix).map (fun r => r.2.2) = ix.map (fun p => (encodeHits p.2).length) := by
  induction ix with
  | nil => intro s; rfl
  | cons p rest ih => intro s; simp [termRows, ih]

theorem termRows_keys (ix : List (String × List Hit)) : ∀ s : Nat,
    (termRows s ix).map Prod.fst = keys ix := by
  induction ix with
  | nil => intro s; rfl
  | cons p rest ih => intro s; simp [termRows, ih, keys]

theorem blobOf_length (ix : List (String × List Hit)) :
    (blobOf ix).length = (ix.map (fun p => (encodeHits p.2).length)).sum := by
  simp only [blobOf, List.length_flatten, List.map_map]
  rfl

theorem termRows_getElem (ix : List (String × List Hit)) : ∀ (s k : Nat) (r : String × Nat × Nat),
    (termRows s ix)[k]? = some r →
    r.2.1 = s + (((termRows s ix).take k).map (fun r => r.2.2)).sum := by
  induction ix with
  | nil => intro s k r h; simp [termRows] at h
  | cons p rest ih =>
    intro s k r h
    match k with
    | 0 =>
      rw [termRows] at h ⊢
      simp at h
      simp [← h]
    | k + 1 =>
      rw [termRows] at h ⊢
      simp only [List.getElem?_cons_succ] at h
      have := ih (s + (encodeHits p.2).length) k r h
      rw [this]
      simp [List.sum_cons]
      omega

theorem sum_take_mono (l : List Nat) : ∀ i j : Nat, i ≤ j →
    (l.take i).sum ≤ (l.take j).sum := by
  induction l with
  | nil => intro i j _; simp
  | cons x xs ih =>
    intro i j hij
    match i, j with
    | 0, j => simp
    | i + 1, j + 1 =>
      simp only [List.take_succ_cons, List.sum_cons]
      exact Nat.add_le_add_left (ih i j (by omega)) x

theorem sum_take_succ_nat (l : List Nat) : ∀ (k x : Nat), l[k]? = some x →
    (l.take (k + 1)).sum = (l.take k).sum + x := by
  induction l with
  | nil => intro k x h; simp at h
  | cons y ys ih =>
    intro k x h
    match k with
    | 0 => simp at h; simp [h]
    | k + 1 =>
      simp only [List.getElem?_cons_succ] at h
      simp only [List.take_succ_cons, List.sum_cons, ih k x h]
      omega

/-! ## The postings codec: encode/decode round trip and exactness -/

theorem take_len_append {α : Type} (l1 l2 : List α) (n : Nat) (h : l1.length = n) :
    (l1 ++ l2).take n = l1 := by
  subst h
  induction l1 with
  | nil => simp
  | cons x xs ih => simp [ih]

theorem drop_len_append {α : Type} (l1 l2 : List α) (n : Nat) (h : l1.length = n) :
    (l1 ++ l2).drop n = l2 := by
  subst h
  induction l1 with
  | nil => simp
  | cons x xs ih => simp [ih]

theorem length_le32 (n : Nat) : (le32 n).length = 4 := rfl

theorem fromLe_le32 (n : Nat) (h : n < 2 ^ 32) : fromLe (le32 n) = n := by
  simp only [le32, fromLe, List.foldr]
  omega

theorem le32_lt_256 (n : Nat) : ∀ b ∈ le32 n, b < 256 := by
  simp only [le32, List.mem_cons, List.not_mem_nil, or_false]
  rintro b (rfl | rfl | rfl | rfl) <;> omega

theorem fromLe_lt (b0 b1 b2 b3 : Nat) (h0 : b0 < 256) (h1 : b1 < 256) (h2 : b2 < 256)
    (h3 : b3 < 256) : fromLe [b0, b1, b2, b3] < 2 ^ 32 := by
  simp only [fromLe, List.foldr]
  omega

theorem le32_fromLe (b0 b1 b2 b3 : Nat) (h0 : b0 < 256) (h1 : b1 < 256) (h2 : b2 < 256)
    (h3 : b3 < 256) : le32 (fromLe [b0, b1, b2, b3]) = [b0, b1, b2, b3] := by
  simp only [fromLe, le32, List.foldr, List.cons.injEq, and_true]
  refine ⟨by omega, by omega, by omega, by omega⟩

theorem length_flatten_map_le32 (offs : List Nat) :
    ((offs.map le32).flatten).length = 4 * offs.length := by
  induction offs with
  | nil => rfl
  | cons o rest ih =>
    simp only [List.map_cons, List.flatten_cons, List.length_append, ih, length_le32,
      List.length_cons]
    omega

theorem length_encodeHit (h : Hit) :
    (encodeHit h).length = 8 + 4 * h.offsets.length := by
  simp only [encodeHit, List.length_append, length_le32, length_flatten_map_le32]

theorem decodeOffsets_flatten_map (offs : List Nat) (hv : ∀ o ∈ offs, o < 2 ^ 32) :
    decodeOffsets ((offs.map le32).flatten) = offs := by
  induction offs with
  | nil => rfl
  | cons o rest ih =>
    have ho : o < 2 ^ 32 := hv o (by simp)
    show decodeOffsets ((le32 o) ++ (rest.map le32).flatten) = o :: rest
    rw [show le32 o = [o % 256, o / 256 % 256, o / 256 ^ 2 % 256, o / 256 ^ 3 % 256] from rfl]
    rw [List.cons_append, List.cons_append, List.cons_append, List.cons_append,
      List.nil_append, decodeOffsets]
    rw [show ([o % 256, o / 256 % 256, o / 256 ^ 2 % 256, o / 256 ^ 3 % 256] : List Nat) =
      le32 o from rfl, fromLe_le32 o ho, ih (fun x hx => hv x (by simp [hx]))]

theorem decodeLoop_nil (fuel : Nat) : decodeLoop fuel [] = some [] := by
  cases fuel <;> rfl

theorem decodeLoop_succ_cons (fuel : Nat) (b : Nat) (bs : List Nat) :
    decodeLoop (fuel + 1) (b :: bs) =
      if 8 ≤ (b :: bs).length then
        if 8 + 4 * fromLe (((b :: bs).drop 4).take 4) ≤ (b :: bs).length then
          match decodeLoop fuel
              ((b :: bs).drop (8 + 4 * fromLe (((b :: bs).drop 4).take 4))) with
          | some hs =>
            some (⟨fromLe ((b :: bs).take 4),
              decodeOffsets (((b :: bs).drop 8).take
                (4 * fromLe (((b :: bs).drop 4).take 4)))⟩ :: hs)
          | none => none
        else none
      else none := rfl

theorem decodeLoop_encodeHits : ∀ (hs : List Hit) (fuel : Nat),
    (∀ h ∈ hs, ValidHit h) → (encodeHits hs).length ≤ fuel →
    decodeLoop fuel (encodeHits hs) = some hs := by
  intro hs
  induction hs with
  | nil =>
    intro fuel _ _
    show decodeLoop fuel [] = some []
    exact decodeLoop_nil fuel
  | cons h rest ih =>
    intro fuel hv hf
    obtain ⟨hd, hn, ho⟩ := hv h (by simp)
    have hbytes : encodeHits (h :: rest) =
        le32 h.doc_id ++ (le32 h.offsets.length ++
          ((h.offsets.map le32).flatten ++ encodeHits rest)) := by
      show encodeHit h ++ encodeHits rest = _
      simp [encodeHit, List.append_assoc]
    have hlen : (encodeHits (h :: rest)).length =
        8 + 4 * h.offsets.length + (encodeHits rest).length := by
      show (encodeHit h ++ encodeHits rest).length = _
      simp [length_encodeHit]
    match fuel with
    | 0 => omega
    | f + 1 =>
      obtain ⟨b, bs, hb⟩ : ∃ b bs, encodeHits (h :: rest) = b :: bs := by
        rcases he : encodeHits (h :: rest) with _ | ⟨b, bs⟩
        · rw [he] at hlen; simp at hlen; omega
        · exact ⟨b, bs, rfl⟩
      rw [hb, decodeLoop_succ_cons]
      rw [← hb, hbytes]
      have htake4 : (le32 h.doc_id ++ (le32 h.offsets.length ++
          ((h.offsets.map le32).flatten ++ encodeHits rest))).take 4 = le32 h.doc_id :=
        take_len_append _ _ 4 (length_le32 _)
      have hdrop4 : (le32 h.doc_id ++ (le32 h.offsets.length ++
          ((h.offsets.map le32).flatten ++ encodeHits rest))).drop 4 =
          le32 h.offsets.length ++ ((h.offsets.map le32).flatten ++ encodeHits rest) :=
        drop_len_append _ _ 4 (length_le32 _)
      have htake44 : ((le32 h.doc_id ++ (le32 h.offsets.length ++
          ((h.offsets.map le32).flatten ++ encodeHits rest))).drop 4).take 4 =
          le32 h.offsets.length := by
        rw [hdrop4]
        exact take_len_append _ _ 4 (length_le32 _)
      have hcnt : fromLe (((le32 h.doc_id ++ (le32 h.offsets.length ++
          ((h.offsets.map le32).flatten ++ encodeHits rest))).drop 4).take 4) =
          h.offsets.length := by
        rw [htake44, fromLe_le32 _ hn]
      have hlen8 : (le32 h.doc_id ++ le32 h.offsets.length).length = 8 := by
        simp [length_le32]
      have hdrop8 : (le32 h.doc_id ++ (le32 h.offsets.length ++
          ((h.offsets.map le32).flatten ++ encodeHits rest))).drop 8 =
          (h.offsets.map le32).flatten ++ encodeHits rest := by
        rw [← List.append_assoc]
        exact drop_len_append _ _ 8 hlen8
      have hlentot : (le32 h.doc_id ++ (le32 h.offsets.length ++
          ((h.offsets.map le32).flatten ++ encodeHits rest))).length =
          8 + 4 * h.offsets.length + (encodeHits rest).length := by
        rw [← hbytes]; exact hlen
      rw [hcnt]
      rw [if_pos (by rw [hlentot]; omega), if_pos (by rw [hlentot]; omega)]
      have hdropall : (le32 h.doc_id ++ (le32 h.offsets.length ++
          ((h.offsets.map le32).flatten ++ encodeHits rest))).drop
            (8 + 4 * h.offsets.length) = encodeHits rest := by
        rw [← List.append_assoc, ← List.append_assoc]
        refine drop_len_append _ _ _ ?_
        simp only [List.length_append, length_le32, length_flatten_map_le32]
      rw [hdropall, ih f (fun x hx => hv x (by simp [hx])) (by omega)]
      rw [hdrop8, htake4]
      rw [take_len_append _ _ _ (length_flatten_map_le32 h.offsets)]
      rw [fromLe_le32 _ hd, decodeOffsets_flatten_map h.offsets ho]

theorem decodeHits_encodeHits (hs : List Hit) (hv : ∀ h ∈ hs, ValidHit h) :
    decodeHits (encodeHits hs) = some hs :=
  decodeLoop_encodeHits hs (encodeHits hs).length hv le_rfl

theorem decodeOffsets_length : ∀ l : List Nat, (decodeOffsets l).length = l.length / 4 := by
  intro l
  match l with
  | [] => rfl
  | [b0] => simp [decodeOffsets]
  | [b0, b1] => simp [decodeOffsets]
  | [b0, b1, b2] => simp [decodeOffsets]
  | b0 :: b1 :: b2 :: b3 :: rest =>
    rw [decodeOffsets, List.length_cons, decodeOffsets_length rest]
    simp only [List.length_cons]
    omega

theorem decodeOffsets_lt : ∀ l : List Nat, (∀ b ∈ l, b < 256) →
    ∀ o ∈ decodeOffsets l, o < 2 ^ 32 := by
  intro l
  match l with
  | [] => intro _ o ho; cases ho
  | [b0] => intro _ o ho; cases ho
  | [b0, b1] => intro _ o ho; cases ho
  | [b0, b1, b2] => intro _ o ho; cases ho
  | b0 :: b1 :: b2 :: b3 :: rest =>
    intro hb o ho
    rw [decodeOffsets] at ho
    rcases List.mem_cons.mp ho with rfl | hr
    · exact fromLe_lt b0 b1 b2 b3 (hb b0 (by simp)) (hb b1 (by simp)) (hb b2 (by simp))
        (hb b3 (by simp))
    · exact decodeOffsets_lt rest (fun b hbm => hb b (by simp [hbm])) o hr

theorem flatten_map_le32_decodeOffsets : ∀ l : List Nat, (∀ b ∈ l, b < 256) →
    4 ∣ l.length → ((decodeOffsets l).map le32).flatten = l := by
  intro l
  match l with
  | [] => intro _ _; rfl
  | [b0] => intro _ hd; simp at hd
  | [b0, b1] => intro _ hd; simp at hd; omega
  | [b0, b1, b2] => intro _ hd; simp at hd; omega
  | b0 :: b1 :: b2 :: b3 :: rest =>
    intro hb hd
    rw [decodeOffsets, List.map_cons, List.flatten_cons,
      le32_fromLe b0 b1 b2 b3 (hb b0 (by simp)) (hb b1 (by simp)) (hb b2 (by simp))
        (hb b3 (by simp)),
      flatten_map_le32_decodeOffsets rest (fun b hbm => hb b (by simp [hbm]))
        (by simp only [List.length_cons] at hd ⊢; omega)]
    rfl

theorem exists_eight_bytes (l : List Nat) (h : 8 ≤ l.length) :
    ∃ b0 b1 b2 b3 b4 b5 b6 b7 rest,
      l = b0 :: b1 :: b2 :: b3 :: b4 :: b5 :: b6 :: b7 :: rest := by
  match l with
  | b0 :: b1 :: b2 :: b3 :: b4 :: b5 :: b6 :: b7 :: rest =>
    exact ⟨b0, b1, b2, b3, b4, b5, b6, b7, rest, rfl⟩
  | [] | [_] | [_, _] | [_, _, _] | [_, _, _, _] | [_, _, _, _, _]
  | [_, _, _, _, _, _] | [_, _, _, _, _, _, _] => simp at h

theorem decodeLoop_sound : ∀ (fuel : Nat) (bytes : List Nat) (hs : List Hit),
    (∀ b ∈ bytes, b < 256) → decodeLoop fuel bytes = some hs →
    encodeHits hs = bytes ∧ ∀ h ∈ hs, ValidHit h := by
  intro fuel
  induction fuel with
  | zero =>
    intro bytes hs hb hd
    match bytes with
    | [] =>
      rw [decodeLoop_nil] at hd
      cases hd
      exact ⟨rfl, by intro h hm; cases hm⟩
    | b :: bs => cases hd
  | succ f ih =>
    intro bytes hs hb hd
    match bytes with
    | [] =>
      rw [decodeLoop_nil] at hd
      cases hd
      exact ⟨rfl, by intro h hm; cases hm⟩
    | b :: bs =>
      rw [decodeLoop_succ_cons] at hd
      by_cases h8 : 8 ≤ (b :: bs).length
      · rw [if_pos h8] at hd
        obtain ⟨b0, b1, b2, b3, b4, b5, b6, b7, rest, heq⟩ :=
          exists_eight_bytes (b :: bs) h8
        rw [heq] at hd hb ⊢
        have hcnt : fromLe (((b0 :: b1 :: b2 :: b3 :: b4 :: b5 :: b6 :: b7 :: rest).drop 4).take 4) =
            fromLe [b4, b5, b6, b7] := rfl
        rw [hcnt] at hd
        by_cases hc : 8 + 4 * fromLe [b4, b5, b6, b7] ≤
            (b0 :: b1 :: b2 :: b3 :: b4 :: b5 :: b6 :: b7 :: rest).length
        · rw [if_pos hc] at hd
          have hdropc :
              (b0 :: b1 :: b2 :: b3 :: b4 :: b5 :: b6 :: b7 :: rest).drop
                (8 + 4 * fromLe [b4, b5, b6, b7]) = rest.drop (4 * fromLe [b4, b5, b6, b7]) := by
            simp only [List.drop_succ_cons, show 8 + 4 * fromLe [b4, b5, b6, b7] =
              (4 * fromLe [b4, b5, b6, b7] + 1 + 1 + 1 + 1 + 1 + 1 + 1 + 1) by omega]
          rw [hdropc] at hd
          rcases hrec : decodeLoop f (rest.drop (4 * fromLe [b4, b5, b6, b7])) with _ | tl
          · rw [hrec] at hd; cases hd
          · rw [hrec] at hd
            obtain ⟨henc, hvtl⟩ := ih (rest.drop (4 * fromLe [b4, b5, b6, b7])) tl
              (fun x hx => hb x (by
                have : x ∈ rest := List.mem_of_mem_drop hx
                simp [this])) hrec
            have hseglen : (rest.take (4 * fromLe [b4, b5, b6, b7])).length =
                4 * fromLe [b4, b5, b6, b7] := by
              rw [List.length_take]
              simp only [List.length_cons] at hc
              omega
            have hsegb : ∀ x ∈ rest.take (4 * fromLe [b4, b5, b6, b7]), x < 256 := by
              intro x hx
              have : x ∈ rest := List.mem_of_mem_take hx
              exact hb x (by simp [this])
            have hofflen : (decodeOffsets (rest.take (4 * fromLe [b4, b5, b6, b7]))).length =
                fromLe [b4, b5, b6, b7] := by
              rw [decodeOffsets_length, hseglen]
              omega
            have hb0 : b0 < 256 := hb b0 (by simp)
            have hb1 : b1 < 256 := hb b1 (by simp)
            have hb2 : b2 < 256 := hb b2 (by simp)
            have hb3 : b3 < 256 := hb b3 (by simp)
            have hb4 : b4 < 256 := hb b4 (by simp)
            have hb5 : b5 < 256 := hb b5 (by simp)
            have hb6 : b6 < 256 := hb b6 (by simp)
            have hb7 : b7 < 256 := hb b7 (by simp)
            have htk4 : (b0 :: b1 :: b2 :: b3 :: b4 :: b5 :: b6 :: b7 :: rest).take 4 =
                [b0, b1, b2, b3] := rfl
            have hdp8 : ((b0 :: b1 :: b2 :: b3 :: b4 :: b5 :: b6 :: b7 :: rest).drop 8) =
                rest := rfl
            rw [htk4, hdp8] at hd
            cases hd
            constructor
            · show encodeHit _ ++ encodeHits tl = _
              rw [henc, encodeHit]
              simp only
              rw [le32_fromLe b0 b1 b2 b3 hb0 hb1 hb2 hb3, hofflen,
                le32_fromLe b4 b5 b6 b7 hb4 hb5 hb6 hb7,
                flatten_map_le32_decodeOffsets (rest.take (4 * fromLe [b4, b5, b6, b7]))
                  hsegb (by rw [hseglen]; exact Dvd.intro _ rfl),
                List.append_assoc, List.append_assoc]
              simp only [List.cons_append, List.nil_append, List.take_append_drop]
            · intro h hm
              rcases List.mem_cons.mp hm with rfl | hmtl
              · refine ⟨fromLe_lt b0 b1 b2 b3 hb0 hb1 hb2 hb3, ?_, ?_⟩
                · simp only [hofflen]
                  exact fromLe_lt b4 b5 b6 b7 hb4 hb5 hb6 hb7
                · exact decodeOffsets_lt _ hsegb
              · exact hvtl h hmtl
        · rw [if_neg hc] at hd; cases hd
      · rw [if_neg h8] at hd; cases hd

/-- Decoding succeeds exactly on byte ranges that are the encoding of a
valid hit list, and then returns that hit list: nothing is truncated or
ignored. -/
theorem decodeHits_exact (bytes : List Nat) (hs : List Hit) (hb : ∀ b ∈ bytes, b < 256) :
    decodeHits bytes = some hs ↔ (encodeHits hs = bytes ∧ ∀ h ∈ hs, ValidHit h) := by
  constructor
  · intro hd
    exact decodeLoop_sound bytes.length bytes hs hb hd
  · rintro ⟨henc, hv⟩
    rw [← henc]
    exact decodeHits_encodeHits hs hv

theorem termRows_find_slice : ∀ (ix : List (String × List Hit)) (pre : List Nat) (v : String),
    (keys ix).Nodup →
    ((termRows pre.length ix).find? (fun p => p.1 == v) = none ∧ v ∉ keys ix) ∨
    (∃ row, (termRows pre.length ix).find? (fun p => p.1 == v) = some row ∧ row.1 = v ∧
      ((pre ++ blobOf ix).drop row.2.1).take row.2.2 = encodeHits (getHits ix v)) := by
  intro ix
  induction ix with
  | nil =>
    intro pre v _
    exact Or.inl ⟨rfl, by simp [keys]⟩
  | cons p rest ih =>
    intro pre v hnd
    obtain ⟨w, hs⟩ := p
    have hnd' : (keys rest).Nodup := (List.nodup_cons.mp (by simpa [keys] using hnd)).2
    by_cases hvw : w = v
    · refine Or.inr ⟨(w, pre.length, (encodeHits hs).length), ?_, hvw, ?_⟩
      · rw [termRows]
        exact List.find?_cons_of_pos _ (by simpa using hvw)
      · have hblob : blobOf ((w, hs) :: rest) = encodeHits hs ++ blobOf rest := by
          simp [blobOf]
        rw [hblob, getHits_cons, if_pos hvw]
        show ((pre ++ (encodeHits hs ++ blobOf rest)).drop pre.length).take
          (encodeHits hs).length = encodeHits hs
        rw [drop_len_append pre _ pre.length rfl, take_len_append _ _ _ rfl]
    · have hfindc : (termRows pre.length ((w, hs) :: rest)).find? (fun p => p.1 == v) =
          (termRows (pre.length + (encodeHits hs).length) rest).find? (fun p => p.1 == v) := by
        rw [termRows]
        exact List.find?_cons_of_neg _ (by simpa using hvw)
      have hlen : (pre ++ encodeHits hs).length = pre.length + (encodeHits hs).length := by
        simp
      rcases ih (pre ++ encodeHits hs) v hnd' with ⟨hfind, hnm⟩ | ⟨row, hfind, hv1, hslice⟩
      · refine Or.inl ⟨?_, ?_⟩
        · rw [hfindc, ← hlen]
          exact hfind
        · intro hm
          rcases (by simpa [keys] using hm : v = w ∨ v ∈ keys rest) with he | hr
          · exact hvw he.symm
          · exact hnm hr
      · refine Or.inr ⟨row, ?_, hv1, ?_⟩
        · rw [hfindc, ← hlen]
          exact hfind
        · have hblob : pre ++ blobOf ((w, hs) :: rest) =
              (pre ++ encodeHits hs) ++ blobOf rest := by
            simp [blobOf, List.append_assoc]
          rw [hblob, getHits_cons, if_neg hvw]
          exact hslice

theorem valid_expectedHits (docs : List (String × String)) (hd : docs.length < 2 ^ 32)
    (hw : ∀ d ∈ docs, (words d.2).length < 2 ^ 32) (v : String) :
    ∀ h ∈ expectedHits v docs, ValidHit h := by
  intro h hm
  obtain ⟨k, d, hget, hid, hoffs, hvm⟩ := mem_expectedHitsFrom v docs 0 h hm
  have hk : k < docs.length := by
    by_contra hge
    rw [List.getElem?_eq_none (by omega)] at hget
    cases hget
  have hdm : d ∈ docs := by
    obtain ⟨hlt, he⟩ := List.getElem?_eq_some.mp hget
    rw [← he]
    exact List.getElem_mem hlt
  have hwd : (words d.2).length < 2 ^ 32 := hw d hdm
  refine ⟨by omega, ?_, ?_⟩
  · rw [hoffs]
    exact lt_of_le_of_lt (length_positionsFrom_le v (words d.2) 0) hwd
  · intro o ho
    rw [hoffs] at ho
    have := lt_of_mem_positionsFrom v (words d.2) 0 o ho
    omega

/-- Round trip: on an index produced by `make_index`, `lookup` returns,
for every word, exactly the postings recomputed from the tokenizer's
output on each document. -/
theorem lookup_makeIndex (docs : List (String × String)) (hd : docs.length < 2 ^ 32)
    (hw : ∀ d ∈ docs, (words d.2).length < 2 ^ 32) (v : String) :
    lookup (makeIndex docs) v = some (expectedHits v docs) := by
  rw [makeIndex_eq]
  show (match (termRows 0 (build docs).index).find? (fun p => p.1 == v) with
    | none => some []
    | some p => decodeHits (((blobOf (build docs).index).drop p.2.1).take p.2.2)) = _
  have h0 : (0 : Nat) = ([] : List Nat).length := rfl
  rcases termRows_find_slice (build docs).index [] v (nodup_keys_build docs) with
    ⟨hfind, hnm⟩ | ⟨row, hfind, hv1, hslice⟩
  · rw [h0, hfind]
    have hne : expectedHits v docs = [] := by
      rw [← getHits_build docs v]
      exact getHits_eq_nil_of_not_mem_keys _ _ hnm
    rw [hne]
  · rw [h0, hfind]
    rw [List.nil_append] at hslice
    show decodeHits (((blobOf (build docs).index).drop row.2.1).take row.2.2) = _
    rw [hslice, getHits_build docs v]
    exact decodeHits_encodeHits _ (valid_expectedHits docs hd hw v)

/-! ## Scoring lemmas -/

theorem scoreVal_nil (d : Nat) : scoreVal [] d = 0 := rfl

theorem scoreVal_cons (d0 : Nat) (s0 : ℝ) (rest : List (Nat × ℝ)) (d' : Nat) :
    scoreVal ((d0, s0) :: rest) d' = if d0 = d' then s0 else scoreVal rest d' := by
  by_cases h : d0 = d'
  · simp [scoreVal, List.find?_cons_of_pos, h]
  · simp [scoreVal, List.find?_cons_of_neg, h]

theorem scoreVal_bump (scores : List (Nat × ℝ)) (d : Nat) (x : ℝ) (d' : Nat) :
    scoreVal (bump scores d x) d' = scoreVal scores d' + (if d' = d then x else 0) := by
  induction scores with
  | nil =>
    by_cases h : d' = d
    · subst h
      simp [bump, scoreVal_cons, scoreVal_nil]
    · simp [bump, scoreVal_cons, scoreVal_nil, h, Ne.symm h]
  | cons p rest ih =>
    obtain ⟨d0, s0⟩ := p
    by_cases hd : d0 = d
    · subst hd
      by_cases hd' : d0 = d'
      · subst hd'
        simp [bump, scoreVal_cons]
      · have hne : ¬ d' = d0 := fun h => hd' h.symm
        simp [bump, scoreVal_cons, hd', hne]
    · by_cases hd' : d0 = d'
      · subst hd'
        have hne : ¬ d0 = d := hd
        simp [bump, hne, scoreVal_cons, fun h : d0 = d => hne h]
      · simp [bump, hd, scoreVal_cons, hd', ih]

theorem mem_bump : ∀ (scores : List (Nat × ℝ)) (d : Nat) (x : ℝ) (p : Nat × ℝ),
    p ∈ bump scores d x → p.1 = d ∨ ∃ s, (p.1, s) ∈ scores := by
  intro scores
  induction scores with
  | nil =>
    intro d x p hp
    rcases List.mem_singleton.mp hp with rfl
    exact Or.inl rfl
  | cons q rest ih =>
    intro d x p hp
    obtain ⟨d0, s0⟩ := q
    by_cases hd : d0 = d
    · rw [bump, if_pos hd] at hp
      rcases List.mem_cons.mp hp with rfl | hr
      · exact Or.inl hd
      · exact Or.inr ⟨p.2, List.mem_cons_of_mem _ (by simpa using hr)⟩
    · rw [bump, if_neg hd] at hp
      rcases List.mem_cons.mp hp with rfl | hr
      · exact Or.inr ⟨s0, by simp⟩
      · rcases ih d x p hr with h | ⟨s, hs⟩
        · exact Or.inl h
        · exact Or.inr ⟨s, List.mem_cons_of_mem _ hs⟩

theorem scoreHits_nil_eq (documents : List Document) (idf : ℝ) (scores : List (Nat × ℝ)) :
    scoreHits documents idf scores [] = some scores := rfl

theorem scoreHits_cons_eq (documents : List Document) (idf : ℝ) (scores : List (Nat × ℝ))
    (h : Hit) (rest : List Hit) :
    scoreHits documents idf scores (h :: rest) =
      match documents[h.doc_id]? with
      | none => none
      | some doc =>
        scoreHits documents idf
          (bump scores h.doc_id (1000 * (h.offsets.length : ℝ) / (doc.size : ℝ) * idf))
          rest := rfl

theorem hitsContribution_nil (documents : List Document) (idf : ℝ) (d : Nat) :
    hitsContribution documents idf [] d = 0 := by
  simp [hitsContribution]

theorem hitsContribution_cons (documents : List Document) (idf : ℝ) (h : Hit)
    (rest : List Hit) (d : Nat) :
    hitsContribution documents idf (h :: rest) d =
      (if h.doc_id = d then
        1000 * (h.offsets.length : ℝ) /
          (((documents[h.doc_id]?).getD ⟨"", 0⟩).size : ℝ) * idf
      else 0) + hitsContribution documents idf rest d := by
  rw [hitsContribution, List.map_cons, List.sum_cons]
  rfl

theorem scoreHits_val : ∀ (hits : List Hit) (documents : List Document) (idf : ℝ)
    (scores out : List (Nat × ℝ)),
    scoreHits documents idf scores hits = some out →
    ∀ d, scoreVal out d = scoreVal scores d + hitsContribution documents idf hits d := by
  intro hits
  induction hits with
  | nil =>
    intro documents idf scores out hout d
    rw [scoreHits_nil_eq] at hout
    cases hout
    simp [hitsContribution]
  | cons h rest ih =>
    intro documents idf scores out hout d
    rw [scoreHits_cons_eq] at hout
    rcases hdoc : documents[h.doc_id]? with _ | doc
    · rw [hdoc] at hout; cases hout
    · rw [hdoc] at hout
      have hrec := ih documents idf _ out hout d
      rw [hrec, scoreVal_bump, hitsContribution_cons, hdoc]
      by_cases hdd : d = h.doc_id
      · rw [if_pos hdd, if_pos hdd.symm]
        simp only [Option.getD_some]
        ring
      · rw [if_neg hdd, if_neg (fun hc => hdd hc.symm)]
        ring

theorem scoreHits_mem : ∀ (hits : List Hit) (documents : List Document) (idf : ℝ)
    (scores out : List (Nat × ℝ)),
    scoreHits documents idf scores hits = some out →
    ∀ p ∈ out, (∃ s, (p.1, s) ∈ scores) ∨ ∃ h ∈ hits, h.doc_id = p.1 := by
  intro hits
  induction hits with
  | nil =>
    intro documents idf scores out hout p hp
    rw [scoreHits_nil_eq] at hout
    cases hout
    exact Or.inl ⟨p.2, by simpa using hp⟩
  | cons h rest ih =>
    intro documents idf scores out hout p hp
    rw [scoreHits_cons_eq] at hout
    rcases hdoc : documents[h.doc_id]? with _ | doc
    · rw [hdoc] at hout; cases hout
    · rw [hdoc] at hout
      rcases ih documents idf _ out hout p hp with ⟨s, hs⟩ | ⟨h', hh', hid⟩
      · rcases mem_bump scores h.doc_id _ (p.1, s) hs with hpd | ⟨s', hs'⟩
        · exact Or.inr ⟨h, by simp, by simpa using hpd.symm⟩
        · exact Or.inl ⟨s', hs'⟩
      · exact Or.inr ⟨h', List.mem_cons_of_mem _ hh', hid⟩

theorem scoreWords_nil (idx : Index) (scores : List (Nat × ℝ)) :
    scoreWords idx [] scores = some scores := rfl

theorem scoreWords_cons (idx : Index) (w : String) (ws : List String)
    (scores : List (Nat × ℝ)) :
    scoreWords idx (w :: ws) scores =
      match lookup idx w with
      | none => none
      | some hits =>
        if hits = [] then scoreWords idx ws scores
        else
          match scoreHits idx.documents
              (Real.log (1 / ((hits.length : ℝ) / (idx.documents.length : ℝ))))
              scores hits with
          | none => none
          | some scores' => scoreWords idx ws scores' := rfl

theorem scoreWords_val : ∀ (ws : List String) (idx : Index) (scores out : List (Nat × ℝ)),
    scoreWords idx ws scores = some out →
    ∀ d, scoreVal out d =
      scoreVal scores d + (ws.map fun w => wordContribution idx w d).sum := by
  intro ws
  induction ws with
  | nil =>
    intro idx scores out hout d
    rw [scoreWords_nil] at hout
    cases hout
    simp
  | cons w ws ih =>
    intro idx scores out hout d
    rw [scoreWords_cons] at hout
    rcases hlk : lookup idx w with _ | hits
    · rw [hlk] at hout; cases hout
    · rw [hlk] at hout
      have hout' : (if hits = [] then scoreWords idx ws scores
          else
            match scoreHits idx.documents
                (Real.log (1 / ((hits.length : ℝ) / (idx.documents.length : ℝ))))
                scores hits with
            | none => none
            | some scores' => scoreWords idx ws scores') = some out := hout
      by_cases hnil : hits = []
      · rw [if_pos hnil] at hout'
        have := ih idx scores out hout' d
        rw [this, List.map_cons, List.sum_cons,
          show wordContribution idx w d = 0 by rw [wordContribution, hlk]; simp [hnil]]
        ring
      · rw [if_neg hnil] at hout'
        rcases hsh : scoreHits idx.documents
            (Real.log (1 / ((hits.length : ℝ) / (idx.documents.length : ℝ))))
            scores hits with _ | scores'
        · rw [hsh] at hout'; cases hout'
        · rw [hsh] at hout'
          have h1 := ih idx scores' out hout' d
          have h2 := scoreHits_val hits idx.documents _ scores scores' hsh d
          rw [h1, h2, List.map_cons, List.sum_cons,
            show wordContribution idx w d = hitsContribution idx.documents
              (Real.log (1 / ((hits.length : ℝ) / (idx.documents.length : ℝ)))) hits d by
              rw [wordContribution, hlk]; simp [hnil]]
          ring

theorem scoreWords_mem : ∀ (ws : List String) (idx : Index) (scores out : List (Nat × ℝ)),
    scoreWords idx ws scores = some out →
    ∀ p ∈ out, (∃ s, (p.1, s) ∈ scores) ∨
      ∃ w ∈ ws, ∃ hits, lookup idx w = some hits ∧ ∃ h ∈ hits, h.doc_id = p.1 := by
  intro ws
  induction ws with
  | nil =>
    intro idx scores out hout p hp
    rw [scoreWords_nil] at hout
    cases hout
    exact Or.inl ⟨p.2, by simpa using hp⟩
  | cons w ws ih =>
    intro idx scores out hout p hp
    rw [scoreWords_cons] at hout
    rcases hlk : lookup idx w with _ | hits
    · rw [hlk] at hout; cases hout
    · rw [hlk] at hout
      have hout' : (if hits = [] then scoreWords idx ws scores
          else
            match scoreHits idx.documents
                (Real.log (1 / ((hits.length : ℝ) / (idx.documents.length : ℝ))))
                scores hits with
            | none => none
            | some scores' => scoreWords idx ws scores') = some out := hout
      by_cases hnil : hits = []
      · rw [if_pos hnil] at hout'
        rcases ih idx scores out hout' p hp with hl | ⟨w', hw', hrest⟩
        · exact Or.inl hl
        · exact Or.inr ⟨w', List.mem_cons_of_mem _ hw', hrest⟩
      · rw [if_neg hnil] at hout'
        rcases hsh : scoreHits idx.documents
            (Real.log (1 / ((hits.length : ℝ) / (idx.documents.length : ℝ))))
            scores hits with _ | scores'
        · rw [hsh] at hout'; cases hout'
        · rw [hsh] at hout'
          rcases ih idx scores' out hout' p hp with ⟨s, hs⟩ | ⟨w', hw', hrest⟩
          · rcases scoreHits_mem hits idx.documents _ scores scores' hsh (p.1, s) hs with
              hl | ⟨h, hh, hid⟩
            · exact Or.inl hl
            · exact Or.inr ⟨w, by simp, hits, hlk, h, hh, hid⟩
          · exact Or.inr ⟨w', List.mem_cons_of_mem _ hw', hrest⟩

theorem scoreWords_oov : ∀ (ws : List String) (idx : Index) (scores : List (Nat × ℝ)),
    (∀ w ∈ ws, lookup idx w = some []) → scoreWords idx ws scores = some scores := by
  intro ws
  induction ws with
  | nil => intro idx scores _; rfl
  | cons w ws ih =>
    intro idx scores hoov
    rw [scoreWords_cons, hoov w (by simp)]
    show scoreWords idx ws scores = some scores
    exact ih idx scores (fun w' hw' => hoov w' (by simp [hw']))

theorem sortScores_sorted (s : List (Nat × ℝ)) : List.Pairwise scoreGE (sortScores s) :=
  List.sorted_insertionSort scoreGE s

theorem sortScores_perm (s : List (Nat × ℝ)) : (sortScores s).Perm s :=
  List.perm_insertionSort scoreGE s

theorem mapM_pathify_some : ∀ (l : List (Nat × ℝ)) (documents : List Document)
    (res : List (String × ℝ)), l.mapM (pathify documents) = some res →
    res.map Prod.snd = l.map Prod.snd ∧
      ∀ r ∈ res, ∃ p ∈ l, pathify documents p = some r := by
  intro l
  induction l with
  | nil =>
    intro documents res h
    rw [List.mapM_nil] at h
    cases h
    exact ⟨rfl, by intro r hr; cases hr⟩
  | cons p rest ih =>
    intro documents res h
    rw [List.mapM_cons] at h
    rcases hp : pathify documents p with _ | r0
    · rw [hp] at h; cases h
    · rw [hp] at h
      rcases hrest : rest.mapM (pathify documents) with _ | rs
      · rw [hrest] at h; cases h
      · rw [hrest] at h
        cases h
        obtain ⟨hmap, hmem⟩ := ih documents rs hrest
        have hr0 : r0.2 = p.2 := by
          rw [pathify] at hp
          rcases hdoc : documents[p.1]? with _ | doc
          · rw [hdoc] at hp; cases hp
          · rw [hdoc] at hp
            cases hp
            rfl
        refine ⟨?_, ?_⟩
        · simp [hmap, hr0]
        · intro r hr
          rcases List.mem_cons.mp hr with rfl | hrs
          · exact ⟨p, by simp, hp⟩
          · obtain ⟨q, hq, hqr⟩ := hmem r hrs
            exact ⟨q, List.mem_cons_of_mem _ hq, hqr⟩

/-! ## A concrete two-document corpus used as a test vehicle -/

theorem idxAB_lookup_a : lookup idxAB "a" = some [⟨0, [0]⟩, ⟨1, [0]⟩] := by decide

theorem idxAB_lookup_b : lookup idxAB "b" = some [⟨0, [1]⟩] := by decide

theorem idxAB_documents : idxAB.documents = [⟨"d0", 2⟩, ⟨"d1", 1⟩] := by decide

theorem scoreWords_AB :
    scoreWords idxAB ["a", "b"] [] = some [(0, 500 * Real.log 2), (1, 0)] := by
  have hd0 : idxAB.documents[0]? = some ⟨"d0", 2⟩ := by decide
  have hd1 : idxAB.documents[1]? = some ⟨"d1", 1⟩ := by decide
  have hdl : idxAB.documents.length = 2 := by decide
  simp only [scoreWords_cons, scoreWords_nil, idxAB_lookup_a, idxAB_lookup_b,
    scoreHits_cons_eq, scoreHits_nil_eq, hd0, hd1, hdl, bump]
  norm_num [Real.log_one]
  decide

theorem log_two_pos : (0 : ℝ) < Real.log 2 := Real.log_pos (by norm_num)

theorem sortScores_AB :
    sortScores [(0, 500 * Real.log 2), ((1 : Nat), (0 : ℝ))] =
      [(0, 500 * Real.log 2), (1, 0)] := by
  have hle : scoreGE ((0 : Nat), 500 * Real.log 2) ((1 : Nat), (0 : ℝ)) := by
    show (0 : ℝ) ≤ 500 * Real.log 2
    nlinarith [log_two_pos]
  simp [sortScores, List.insertionSort, List.orderedInsert, hle]

theorem rankedPairs_AB :
    rankedPairs idxAB "a b" = some [(0, 500 * Real.log 2), (1, 0)] := by
  rw [rankedPairs, show words "a b" = ["a", "b"] from by decide, scoreWords_AB]
  simp [sortScores_AB]

theorem search_AB :
    search idxAB "a b" = some [("d0", 500 * Real.log 2), ("d1", 0)] := by
  show (match rankedPairs idxAB "a b" with
    | none => none
    | some pairs => pairs.mapM (pathify idxAB.documents)) = _
  rw [rankedPairs_AB]
  show ([(0, 500 * Real.log 2), ((1 : Nat), (0 : ℝ))].mapM (pathify idxAB.documents)) = _
  have hp0 : pathify idxAB.documents (0, 500 * Real.log 2) = some ("d0", 500 * Real.log 2) := by
    simp [pathify, show idxAB.documents[0]? = some ⟨"d0", 2⟩ from by decide]
  have hp1 : pathify idxAB.documents ((1 : Nat), (0 : ℝ)) = some ("d1", 0) := by
    simp [pathify, show idxAB.documents[1]? = some ⟨"d1", 1⟩ from by decide]
  rw [List.mapM_cons, hp0, List.mapM_cons, hp1, List.mapM_nil]
  rfl

theorem scoreWords_BB :
    scoreWords idxAB ["b", "b"] [] =
      some [(0, 500 * Real.log 2 + 500 * Real.log 2)] := by
  have hd0 : idxAB.documents[0]? = some ⟨"d0", 2⟩ := by decide
  have hdl : idxAB.documents.length = 2 := by decide
  simp only [scoreWords_cons, scoreWords_nil, idxAB_lookup_b,
    scoreHits_cons_eq, scoreHits_nil_eq, hd0, hdl, bump]
  norm_num

theorem sum_map_count_filter (l : List String) (f : String → ℝ) (w : String) :
    (l.map f).sum =
      (l.count w : ℝ) * f w + ((l.filter fun v => v ≠ w).map f).sum := by
  induction l with
  | nil => simp
  | cons a l ih =>
    by_cases haw : a = w
    · subst haw
      have hcount : (a :: l).count a = l.count a + 1 := by
        simp [List.count_cons]
      have hfilter : (a :: l).filter (fun v => v ≠ a) = l.filter (fun v => v ≠ a) := by
        simp [List.filter_cons]
      rw [List.map_cons, List.sum_cons, hcount, hfilter, ih]
      push_cast
      ring
    · have hcount : (a :: l).count w = l.count w := by
        have hne : ¬ w = a := fun h => haw h.symm
        simp [List.count_cons, hne]
      have hfilter : (a :: l).filter (fun v => v ≠ w) =
          a :: l.filter (fun v => v ≠ w) := by
        simp [List.filter_cons]
        exact haw
      rw [List.map_cons, List.sum_cons, hcount, hfilter, List.map_cons, List.sum_cons, ih]
      ring

/-! ## The claims -/

/-- C1: Round-trip: for every document set (whose sizes fit the 4-byte
unsigned fields the code writes), after `make_index` builds the index,
`lookup(term)` returns postings whose offsets exactly equal the 0-based
token positions recomputed directly from the tokenizer's output on each
document's text. -/
theorem claim1_roundtrip (docs : List (String × String)) (hd : docs.length < 2 ^ 32)
    (hw : ∀ d ∈ docs, (words d.2).length < 2 ^ 32) (w : String) :
    lookup (makeIndex docs) w = some (expectedHits w docs) :=
  lookup_makeIndex docs hd hw w

/-- C1 witness: for a single document with text `"a b a"`, `lookup "a"`
returns one posting with offsets `[0, 2]` and `lookup "b"` one with `[1]`. -/
theorem claim1_roundtrip_witness :
    lookup (makeIndex [("d.txt", "a b a")]) "a" = some [⟨0, [0, 2]⟩] ∧
    lookup (makeIndex [("d.txt", "a b a")]) "b" = some [⟨0, [1]⟩] := by
  have ha := claim1_roundtrip [("d.txt", "a b a")] (by decide) (by decide) "a"
  have hb := claim1_roundtrip [("d.txt", "a b a")] (by decide) (by decide) "b"
  exact ⟨ha.trans (by decide), hb.trans (by decide)⟩

/-- C2: the `(byte_offset, byte_length)` pairs written by `make_index`
exactly partition the postings blob: each term's offset is the running
total of the lengths before it (so the first term's offset is `0`), the
lengths sum to the blob's size, and no two ranges overlap. -/
theorem claim2_terms_partition (docs : List (String × String)) :
    (((makeIndex docs).terms.map fun r => r.2.2).sum = (makeIndex docs).blob.length) ∧
    (∀ k r, (makeIndex docs).terms[k]? = some r →
      r.2.1 = (((makeIndex docs).terms.take k).map fun r => r.2.2).sum) ∧
    (∀ (i j : Nat) (ri rj : String × Nat × Nat), i < j →
      (makeIndex docs).terms[i]? = some ri →
      (makeIndex docs).terms[j]? = some rj → ri.2.1 + ri.2.2 ≤ rj.2.1) := by
  have hterms : (makeIndex docs).terms = termRows 0 (build docs).index := by
    rw [makeIndex_eq]
  have hblob : (makeIndex docs).blob = blobOf (build docs).index := by
    rw [makeIndex_eq]
  refine ⟨?_, ?_, ?_⟩
  · rw [hterms, hblob, termRows_lengths, blobOf_length]
  · intro k r hr
    rw [hterms] at hr ⊢
    have := termRows_getElem (build docs).index 0 k r hr
    omega
  · intro i j ri rj hij hri hrj
    rw [hterms] at hri hrj
    have hoff_i := termRows_getElem (build docs).index 0 i ri hri
    have hoff_j := termRows_getElem (build docs).index 0 j rj hrj
    set L := (termRows 0 (build docs).index).map (fun r => r.2.2) with hL
    have hmap_i : ((termRows 0 (build docs).index).take i).map (fun r => r.2.2) =
        L.take i := by rw [hL, List.map_take]
    have hmap_j : ((termRows 0 (build docs).index).take j).map (fun r => r.2.2) =
        L.take j := by rw [hL, List.map_take]
    have hLi : L[i]? = some ri.2.2 := by
      rw [hL, List.getElem?_map, hri]
      rfl
    have hsucc := sum_take_succ_nat L i ri.2.2 hLi
    have hmono := sum_take_mono L (i + 1) j hij
    rw [hoff_i, hoff_j, hmap_i, hmap_j]
    omega

/-- C2 witness: on the two-document corpus, the lengths sum to the blob
size, the first term's offset is the empty running total `0`, and the
first two ranges do not overlap. -/
theorem claim2_terms_partition_witness :
    (((makeIndex docsAB).terms.map fun r => r.2.2).sum = (makeIndex docsAB).blob.length) ∧
    (("a", 0, 24) : String × Nat × Nat).2.1 =
      (((makeIndex docsAB).terms.take 0).map fun r => r.2.2).sum ∧
    (("a", 0, 24) : String × Nat × Nat).2.1 + (("a", 0, 24) : String × Nat × Nat).2.2 ≤
      (("b", 24, 12) : String × Nat × Nat).2.1 := by
  refine ⟨(claim2_terms_partition docsAB).1, ?_, ?_⟩
  · exact (claim2_terms_partition docsAB).2.1 0 ("a", 0, 24) (by decide)
  · exact (claim2_terms_partition docsAB).2.2 0 1 ("a", 0, 24) ("b", 24, 12)
      (by omega) (by decide) (by decide)

/-- C5: for a term present in the term directory, `lookup` decodes
exactly the byte range `[byte_offset, byte_offset + byte_length)`, and
the decode succeeds precisely when that range is exactly a sequence of
`(doc id, count, count offsets)` records — an overrun or underrun makes
it fail (`none`, a raised exception), never a silent truncation. -/
theorem claim5_decode_exact (idx : Index) (w : String) (row : String × Nat × Nat)
    (hrow : idx.terms.find? (fun p => p.1 == w) = some row)
    (hb : ∀ b ∈ (idx.blob.drop row.2.1).take row.2.2, b < 256) :
    lookup idx w = decodeHits ((idx.blob.drop row.2.1).take row.2.2) ∧
    ∀ hs, decodeHits ((idx.blob.drop row.2.1).take row.2.2) = some hs ↔
      (encodeHits hs = (idx.blob.drop row.2.1).take row.2.2 ∧ ∀ h ∈ hs, ValidHit h) := by
  constructor
  · rw [lookup, hrow]
  · intro hs
    exact decodeHits_exact _ hs hb

/-- C5 witness: on the two-document corpus the term `"a"` occupies
`[0, 24)`; `lookup` decodes exactly those bytes, and the decoded hits
re-encode to exactly that range; a 4-byte underrun and a declared-count
overrun both fail. -/
theorem claim5_decode_exact_witness :
    (lookup idxAB "a" = decodeHits ((idxAB.blob.drop 0).take 24)) ∧
    (encodeHits [⟨0, [0]⟩, ⟨1, [0]⟩] = (idxAB.blob.drop 0).take 24 ∧
      ∀ h ∈ ([⟨0, [0]⟩, ⟨1, [0]⟩] : List Hit), ValidHit h) ∧
    decodeHits [1, 0, 0, 0] = none ∧
    decodeHits [0, 0, 0, 0, 2, 0, 0, 0, 1, 0, 0, 0] = none := by
  have h := claim5_decode_exact idxAB "a" ("a", 0, 24) (by decide) (by decide)
  exact ⟨h.1, (h.2 [⟨0, [0]⟩, ⟨1, [0]⟩]).mp (by decide), by decide, by decide⟩

/-- C6: on an index produced by `make_index`, every posting returned by
`lookup` names a document whose recorded token count is at least one, so
the term-frequency division `1000 * len(offsets) / token_count` in
`search` never divides by zero. -/
theorem claim6_tf_denominator (docs : List (String × String)) (hd : docs.length < 2 ^ 32)
    (hw : ∀ d ∈ docs, (words d.2).length < 2 ^ 32) (w : String) (hits : List Hit)
    (hl : lookup (makeIndex docs) w = some hits) :
    ∀ h ∈ hits, ∃ doc, (makeIndex docs).documents[h.doc_id]? = some doc ∧
      1 ≤ doc.size ∧ ((doc.size : ℝ) ≠ 0) := by
  intro h hm
  have hrt := lookup_makeIndex docs hd hw w
  rw [hl] at hrt
  injection hrt with heq
  have hm' : h ∈ expectedHits w docs := heq ▸ hm
  obtain ⟨k, d, hget, hid, hoffs, hvm⟩ := mem_expectedHitsFrom w docs 0 h hm'
  have hdocs : (makeIndex docs).documents = documentsOf docs := by rw [makeIndex_eq]
  have hsize : 1 ≤ (words d.2).length :=
    List.length_pos.mpr (List.ne_nil_of_mem hvm)
  refine ⟨⟨d.1, (words d.2).length⟩, ?_, hsize, ?_⟩
  · rw [hdocs, hid.trans (Nat.zero_add k), documentsOf, List.getElem?_map, hget]
    rfl
  · show (((words d.2).length : Nat) : ℝ) ≠ 0
    exact Nat.cast_ne_zero.mpr (by omega)

/-- C6 witness: on the two-document corpus, the posting for `"a"` in
document 0 names a document of size `2 ≥ 1`. -/
theorem claim6_tf_denominator_witness :
    ∃ doc, (makeIndex docsAB).documents[(Hit.mk 0 [0]).doc_id]? = some doc ∧
      1 ≤ doc.size ∧ ((doc.size : ℝ) ≠ 0) := by
  have h := claim6_tf_denominator docsAB (by decide) (by decide) "a"
    [⟨0, [0]⟩, ⟨1, [0]⟩] (by decide)
  exact h ⟨0, [0]⟩ (by decide)

/-- C3 counterexample: on the two-document corpus (`d0 = "a b"`,
`d1 = "a"`) the query `"a b"` makes `search` return the pair
`("d1", 0)` — an accumulated score of exactly zero — alongside
`("d0", 500·ln 2)`, whose score is nonzero: zero-score entries are not
excluded from the ranking. -/
theorem claim3_zero_score_counterexample :
    search (makeIndex docsAB) "a b" = some [("d0", 500 * Real.log 2), ("d1", 0)] ∧
    500 * Real.log 2 ≠ 0 := by
  constructor
  · exact search_AB
  · nlinarith [log_two_pos]

/-- C3 (amended): `search` does not exclude zero-score documents: every
document that received a score entry (zero or not) is ranked, and when
at most 10 documents scored, all of them — zero scores included — are
returned (sorted by score descending). -/
theorem claim3_all_scored_ranked (idx : Index) (q : String) (scores : List (Nat × ℝ))
    (hs : scoreWords idx (words q) [] = some scores) (hlen : scores.length ≤ 10) :
    rankedPairs idx q = some (sortScores scores) ∧ (sortScores scores).Perm scores := by
  constructor
  · rw [rankedPairs, hs]
    have hl : (sortScores scores).length ≤ 10 := by
      rw [(sortScores_perm scores).length_eq]
      exact hlen
    simp [List.take_of_length_le hl]
  · exact sortScores_perm scores

/-- C3 amended witness: on the two-document corpus with query `"a b"`,
both scored documents — including the zero-score one — appear in the
ranking. -/
theorem claim3_all_scored_ranked_witness :
    rankedPairs idxAB "a b" = some (sortScores [(0, 500 * Real.log 2), (1, 0)]) ∧
    (sortScores [(0, 500 * Real.log 2), ((1 : Nat), (0 : ℝ))]).Perm
      [(0, 500 * Real.log 2), (1, 0)] :=
  claim3_all_scored_ranked idxAB "a b" [(0, 500 * Real.log 2), (1, 0)]
    (by rw [show words "a b" = ["a", "b"] from by decide]; exact scoreWords_AB)
    (by norm_num)

/-- C4: whenever `search` returns a result list, it has at most 10
entries, it is sorted by score descending, and when at most 10
documents scored it has exactly one entry per scored document. -/
theorem claim4_top10 (idx : Index) (q : String) (res : List (String × ℝ))
    (h : search idx q = some res) :
    res.length ≤ 10 ∧ List.Pairwise (fun a b : String × ℝ => b.2 ≤ a.2) res ∧
    ∀ scores, scoreWords idx (words q) [] = some scores → scores.length ≤ 10 →
      res.length = scores.length := by
  have hsearch : (match rankedPairs idx q with
    | none => none
    | some pairs => pairs.mapM (pathify idx.documents)) = some res := h
  rcases hrp : rankedPairs idx q with _ | pairs
  · rw [hrp] at hsearch; cases hsearch
  · rw [hrp] at hsearch
    obtain ⟨hmap, _⟩ := mapM_pathify_some pairs idx.documents res hsearch
    have hlenres : res.length = pairs.length := by
      have h2 := congrArg List.length hmap
      simp only [List.length_map] at h2
      exact h2
    rw [rankedPairs] at hrp
    rcases hsw : scoreWords idx (words q) [] with _ | scores0
    · rw [hsw] at hrp; cases hrp
    · rw [hsw] at hrp
      have hpairs : pairs = (sortScores scores0).take 10 := by
        simpa using hrp.symm
      refine ⟨?_, ?_, ?_⟩
      · rw [hlenres, hpairs]
        exact List.length_take_le 10 (sortScores scores0)
      · have hsp : List.Pairwise scoreGE (sortScores scores0) := sortScores_sorted scores0
        have hsp10 : List.Pairwise scoreGE pairs := by
          rw [hpairs]
          exact hsp.sublist (List.take_sublist 10 (sortScores scores0))
        have h1 : List.Pairwise (fun a b : ℝ => b ≤ a) (pairs.map Prod.snd) :=
          List.pairwise_map.mpr hsp10
        have h2 : List.Pairwise (fun a b : ℝ => b ≤ a) (res.map Prod.snd) := by
          rw [hmap]
          exact h1
        exact List.pairwise_map.mp h2
      · intro scores hsc hle
        have hseq : scores0 = scores := Option.some.inj hsc
        subst hseq
        have hsl : (sortScores scores0).length = scores0.length :=
          (sortScores_perm scores0).length_eq
        rw [hlenres, hpairs, List.take_of_length_le (by omega), hsl]

/-- C4 witness: on the two-document corpus with query `"a b"`, the two
returned pairs are within the cap, sorted descending, and one per
scored document. -/
theorem claim4_top10_witness :
    ([("d0", 500 * Real.log 2), ("d1", (0 : ℝ))].length ≤ 10) ∧
    List.Pairwise (fun a b : String × ℝ => b.2 ≤ a.2)
      [("d0", 500 * Real.log 2), ("d1", 0)] ∧
    [("d0", 500 * Real.log 2), ("d1", (0 : ℝ))].length =
      [(0, 500 * Real.log 2), ((1 : Nat), (0 : ℝ))].length := by
  have h := claim4_top10 idxAB "a b" [("d0", 500 * Real.log 2), ("d1", 0)] search_AB
  exact ⟨h.1, h.2.1, h.2.2 [(0, 500 * Real.log 2), (1, 0)]
    (by rw [show words "a b" = ["a", "b"] from by decide]; exact scoreWords_AB)
    (by norm_num)⟩

/-- C7: query tokens are scored once per occurrence: the accumulated
score of a document is the sum, over the token occurrences of the
query, of each occurrence's tf·idf contribution — so a token occurring
`k` times contributes `k` times its per-occurrence contribution, with
no deduplication. -/
theorem claim7_per_occurrence (idx : Index) (q : String) (out : List (Nat × ℝ))
    (hout : scoreWords idx (words q) [] = some out) (w : String) (d : Nat) :
    scoreVal out d = ((words q).map fun v => wordContribution idx v d).sum ∧
    ((words q).map fun v => wordContribution idx v d).sum =
      ((words q).count w : ℝ) * wordContribution idx w d +
        (((words q).filter fun v => v ≠ w).map fun v => wordContribution idx v d).sum := by
  constructor
  · have := scoreWords_val (words q) idx [] out hout d
    simpa [scoreVal_nil] using this
  · exact sum_map_count_filter (words q) (fun v => wordContribution idx v d) w

/-- C7 witness: the query `"b b"` (token `"b"` twice) accumulates, for
document 0, twice the single-occurrence contribution of `"b"`. -/
theorem claim7_per_occurrence_witness :
    scoreVal [(0, 500 * Real.log 2 + 500 * Real.log 2)] 0 =
      ((words "b b").map fun v => wordContribution idxAB v 0).sum ∧
    ((words "b b").map fun v => wordContribution idxAB v 0).sum =
      ((words "b b").count "b" : ℝ) * wordContribution idxAB "b" 0 +
        (((words "b b").filter fun v => v ≠ "b").map fun v =>
          wordContribution idxAB v 0).sum :=
  claim7_per_occurrence idxAB "b b" [(0, 500 * Real.log 2 + 500 * Real.log 2)]
    (by rw [show words "b b" = ["b", "b"] from by decide]; exact scoreWords_BB) "b" 0

/-- C9: a word absent from the term directory makes `lookup` return the
empty sequence (not an error), and a query all of whose tokens are
absent makes `search` return the empty result list (not an error). -/
theorem claim9_oov (idx : Index) (q : String)
    (hoov : ∀ w ∈ words q, idx.terms.find? (fun p => p.1 == w) = none) :
    (∀ w ∈ words q, lookup idx w = some []) ∧ search idx q = some [] := by
  have hlk : ∀ w ∈ words q, lookup idx w = some [] := by
    intro w hw
    rw [lookup, hoov w hw]
  refine ⟨hlk, ?_⟩
  show (match rankedPairs idx q with
    | none => none
    | some pairs => pairs.mapM (pathify idx.documents)) = some []
  rw [rankedPairs, scoreWords_oov (words q) idx [] hlk]
  rfl

/-- C9 witness: on the two-document corpus, the out-of-vocabulary query
`"zzz qqq"` yields empty lookups and an empty result list. -/
theorem claim9_oov_witness :
    (∀ w ∈ words "zzz qqq", lookup idxAB w = some []) ∧
    search idxAB "zzz qqq" = some [] :=
  claim9_oov idxAB "zzz qqq" (by decide)

/-- C10: every `(document_path, score)` pair returned by `search` on an
index produced by `make_index` names a document containing at least one
of the query's tokens: a document enters the score accumulator only
through a posting returned by `lookup` for some query token. -/
theorem claim10_returned_matches (docs : List (String × String))
    (hd : docs.length < 2 ^ 32) (hw : ∀ d ∈ docs, (words d.2).length < 2 ^ 32)
    (q : String) (res : List (String × ℝ))
    (h : search (makeIndex docs) q = some res) :
    ∀ r ∈ res, ∃ (k : Nat) (d : String × String), docs[k]? = some d ∧ r.1 = d.1 ∧
      ∃ w ∈ words q, w ∈ words d.2 := by
  intro r hr
  have hsearch : (match rankedPairs (makeIndex docs) q with
    | none => none
    | some pairs => pairs.mapM (pathify (makeIndex docs).documents)) = some res := h
  rcases hrp : rankedPairs (makeIndex docs) q with _ | pairs
  · rw [hrp] at hsearch; cases hsearch
  · rw [hrp] at hsearch
    obtain ⟨_, hmem⟩ := mapM_pathify_some pairs _ res hsearch
    obtain ⟨p, hp, hpath⟩ := hmem r hr
    rw [rankedPairs] at hrp
    rcases hsw : scoreWords (makeIndex docs) (words q) [] with _ | scores0
    · rw [hsw] at hrp; cases hrp
    · rw [hsw] at hrp
      have hpairs : pairs = (sortScores scores0).take 10 := by
        simpa using hrp.symm
      have hpin : p ∈ scores0 := by
        have h1 : p ∈ sortScores scores0 := by
          rw [hpairs] at hp
          exact List.mem_of_mem_take hp
        exact (sortScores_perm scores0).mem_iff.mp h1
      rcases scoreWords_mem (words q) (makeIndex docs) [] scores0 hsw p hpin with
        ⟨s, hs⟩ | ⟨w, hwq, hits, hlk, hhit, hmemh, hid⟩
      · cases hs
      · have hrt := lookup_makeIndex docs hd hw w
        rw [hlk] at hrt
        injection hrt with heq
        have hmemh' : hhit ∈ expectedHits w docs := heq ▸ hmemh
        obtain ⟨k, d, hget, hidk, hoffs, hvm⟩ :=
          mem_expectedHitsFrom w docs 0 hhit hmemh'
        have hdocs : (makeIndex docs).documents = documentsOf docs := by
          rw [makeIndex_eq]
        have hp1 : p.1 = k := by omega
        rw [pathify] at hpath
        rcases hdoc : (makeIndex docs).documents[p.1]? with _ | doc
        · rw [hdoc] at hpath; cases hpath
        · rw [hdoc] at hpath
          have hdoc2 : (makeIndex docs).documents[p.1]? =
              some ⟨d.1, (words d.2).length⟩ := by
            rw [hdocs, hp1, documentsOf, List.getElem?_map, hget]
            rfl
          rw [hdoc] at hdoc2
          injection hdoc2 with hdeq
          injection hpath with hreq
          refine ⟨k, d, hget, ?_, w, hwq, hvm⟩
          rw [← hreq, hdeq]

/-- C10 witness: on the two-document corpus with query `"a b"`, the
returned pair `("d0", 500·ln 2)` names document `d0`, which contains
the query token `"a"`. -/
theorem claim10_returned_matches_witness :
    ∃ (k : Nat) (d : String × String), docsAB[k]? = some d ∧
      (("d0", 500 * Real.log 2) : String × ℝ).1 = d.1 ∧
      ∃ w ∈ words "a b", w ∈ words d.2 := by
  have h := claim10_returned_matches docsAB (by decide) (by decide) "a b"
    [("d0", 500 * Real.log 2), ("d1", 0)] search_AB
  exact h ("d0", 500 * Real.log 2) (List.mem_cons_self _ _)

/-- C8: the postings blob written by `make_index` is the concatenation,
in first-discovery order of the terms, of each term's hit records; each
record is the little-endian 4-byte doc id, the 4-byte offset count,
then the offsets, 4 bytes each, in strictly ascending order, with no
padding (its length is exactly `8 + 4·count` bytes, every byte is
below 256, and the 4-byte fields decode back to the stored values). -/
theorem claim8_blob_layout (docs : List (String × String))
    (hd : docs.length < 2 ^ 32) (hw : ∀ d ∈ docs, (words d.2).length < 2 ^ 32) :
    ((makeIndex docs).blob =
      ((build docs).index.map fun p => (p.2.map encodeHit).flatten).flatten) ∧
    ((makeIndex docs).terms.map Prod.fst = keys (build docs).index ∧
      keys (build docs).index = firstDedup (docTokens docs)) ∧
    ∀ p ∈ (build docs).index, ∀ h ∈ p.2,
      encodeHit h = le32 h.doc_id ++ le32 h.offsets.length ++
        (h.offsets.map le32).flatten ∧
      (encodeHit h).length = 8 + 4 * h.offsets.length ∧
      fromLe (le32 h.doc_id) = h.doc_id ∧
      fromLe (le32 h.offsets.length) = h.offsets.length ∧
      (∀ b ∈ encodeHit h, b < 256) ∧
      List.Chain' (· < ·) h.offsets := by
  refine ⟨?_, ⟨?_, keys_build docs⟩, ?_⟩
  · rw [makeIndex_eq]
    show blobOf (build docs).index = _
    rw [blobOf]
    simp only [encodeHits]
  · rw [makeIndex_eq]
    show (termRows 0 (build docs).index).map Prod.fst = _
    rw [termRows_keys]
  · intro p hp h hm
    have hhits : getHits (build docs).index p.1 = p.2 :=
      getHits_of_mem_nodup _ (nodup_keys_build docs) p hp
    have hm' : h ∈ expectedHits p.1 docs := by
      rw [← getHits_build docs p.1, hhits]
      exact hm
    obtain ⟨k, d, hget, hid, hoffs, hvm⟩ := mem_expectedHitsFrom p.1 docs 0 h hm'
    have hk : k < docs.length := by
      by_contra hge
      rw [List.getElem?_eq_none (by omega)] at hget
      cases hget
    have hdm : d ∈ docs := by
      obtain ⟨hlt, he⟩ := List.getElem?_eq_some.mp hget
      rw [← he]
      exact List.getElem_mem hlt
    have hlenlt : h.offsets.length < 2 ^ 32 := by
      rw [hoffs]
      exact lt_of_le_of_lt (length_positionsFrom_le p.1 (words d.2) 0) (hw d hdm)
    refine ⟨rfl, length_encodeHit h, ?_, ?_, ?_, ?_⟩
    · exact fromLe_le32 _ (by omega)
    · exact fromLe_le32 _ hlenlt
    · intro b hb
      rw [encodeHit] at hb
      rcases List.mem_append.mp hb with hb1 | hb2
      · rcases List.mem_append.mp hb1 with hb3 | hb4
        · exact le32_lt_256 _ b hb3
        · exact le32_lt_256 _ b hb4
      · obtain ⟨l, hl, hbl⟩ := List.mem_flatten.mp hb2
        obtain ⟨o, _, rfl⟩ := List.mem_map.mp hl
        exact le32_lt_256 o b hbl
    · rw [hoffs]
      exact chain_positionsFrom p.1 (words d.2) 0

/-- C8 witness: on the two-document corpus, the blob is the per-term
concatenation in first-discovery order, and the offsets of the hit
`(doc 0, [0])` of term `"a"` are strictly ascending. -/
theorem claim8_blob_layout_witness :
    ((makeIndex docsAB).blob =
      ((build docsAB).index.map fun p => (p.2.map encodeHit).flatten).flatten) ∧
    keys (build docsAB).index = firstDedup (docTokens docsAB) ∧
    List.Chain' (· < ·) (Hit.mk 0 [0]).offsets := by
  have h := claim8_blob_layout docsAB (by decide) (by decide)
  refine ⟨h.1, h.2.1.2, ?_⟩
  exact (h.2.2 ("a", [⟨0, [0]⟩, ⟨1, [0]⟩]) (by decide) ⟨0, [0]⟩ (by decide)).2.2.2.2.2

